import Mathlib

/-!
A shallow embedding of the Mesos hierarchical DRF allocator, as described by
the natural-language specification of this repository and pinned down by the
unit tests in `src/tests/hierarchical_allocator_tests.cpp`.

The allocator implementation itself (`master/allocator/mesos/hierarchical.cpp`
and the DRF sorter) is not part of the source tree here; only its test suite
is.  Definitions below are therefore modelled from the specification, and
wherever the tests in the repository pin down a behaviour (tie breaking,
filter expiry, quota head-room for frameworkless roles, coarse-grained stage-1
allocation) the tests take precedence over the spec prose.  Each such place is
noted in the corresponding doc comment.

Numeric resource quantities are rationals (the C++ code uses doubles; the
tests only exercise exactly representable values).  Resource vectors are
multisets of tagged line items, exactly as the spec's data model describes:
a name, a reservation role (`*` for unreserved), a revocable flag and a
shared flag.
-/

/-- A resource tag: name, reservation role (`*` = unreserved), revocable and
shared flags.  Two line items are the same object iff all tags match. -/
structure ResKey where
  name : String
  role : String
  revocable : Bool
  shared : Bool
deriving DecidableEq, Repr

/-- Plain unreserved, non-revocable, non-shared resource tag. -/
def plainKey (n : String) : ResKey := ⟨n, "*", false, false⟩

/-- A resource vector: a multiset of tagged scalar line items. -/
abbrev Resources := List (ResKey × ℤ)

/-- Total amount carried by a resource vector for one exact tag. -/
def rget (r : Resources) (k : ResKey) : ℤ :=
  r.foldr (fun p acc => if p.1 = k then p.2 + acc else acc) 0

/-- The distinct tags appearing in a resource vector. -/
def rkeys (r : Resources) : List ResKey := (r.map (fun p => p.1)).dedup

/-- Tag-for-tag containment (`Resources::contains`). -/
def rcontains (a b : Resources) : Bool :=
  (rkeys a ++ rkeys b).all (fun k => rget b k ≤ rget a k)

/-- Tag-for-tag subtraction, truncated at zero per tag and dropping empty
items (`Resources::operator-=` removes what is present and erases empties).
The result is normalised: one item per tag, all amounts positive. -/
def rsub (a b : Resources) : Resources :=
  (rkeys a ++ rkeys b).dedup.filterMap (fun k =>
    if rget a k - rget b k ≤ 0 then none else some (k, rget a k - rget b k))

/-- Equality of resource vectors as quantities per tag (Mesos `Resources`
equality ignores item order and zero items). -/
def requiv (a b : Resources) : Bool :=
  (rkeys a ++ rkeys b).all (fun k => rget a k == rget b k)

/-- The unreserved slice (`Resources::unreserved`). -/
def unreservedOf (r : Resources) : Resources :=
  r.filter (fun p => p.1.role == "*")

/-- The slice reserved to a given role (`Resources::reserved(role)`); the
role `*` has no reservations. -/
def reservedTo (ρ : String) (r : Resources) : Resources :=
  if ρ = "*" then [] else r.filter (fun p => p.1.role == ρ)

/-- Drop revocable items (`Resources::nonRevocable`). -/
def nonRevocableOf (r : Resources) : Resources :=
  r.filter (fun p => p.1.revocable == false)

/-- Drop shared items (`Resources::nonShared`). -/
def nonSharedOf (r : Resources) : Resources :=
  r.filter (fun p => p.1.shared == false)

/-- Keep only the shared items (`Resources::shared`). -/
def sharedOf (r : Resources) : Resources :=
  r.filter (fun p => p.1.shared == true)

/-- Keep only the revocable items (`Resources::revocable`). -/
def revocableOf (r : Resources) : Resources :=
  r.filter (fun p => p.1.revocable == true)

/-- A role-less scalar quantity vector, keyed by resource name only
(the spec's "componentwise" domain, `createStrippedScalarQuantity`). -/
abbrev Quant := List (String × ℤ)

/-- Amount of one resource name in a quantity vector. -/
def qget (q : Quant) (n : String) : ℤ :=
  q.foldr (fun p acc => if p.1 = n then p.2 + acc else acc) 0

/-- Strip a resource vector to name-keyed quantities. -/
def qOf (r : Resources) : Quant := r.map (fun p => (p.1.name, p.2))

/-- Names mentioned by a quantity vector. -/
def qnames (q : Quant) : List String := (q.map (fun p => p.1)).dedup

/-- Componentwise order on quantity vectors. -/
def qle (a b : Quant) : Bool :=
  (qnames a ++ qnames b).all (fun n => qget a n ≤ qget b n)

/-- Componentwise truncated subtraction of quantity vectors. -/
def qsub (a b : Quant) : Quant :=
  (qnames a ++ qnames b).dedup.filterMap (fun n =>
    if qget a n - qget b n ≤ 0 then none else some (n, qget a n - qget b n))

/-- Sum a list of quantity vectors. -/
def qsum (l : List Quant) : Quant := l.foldr (fun q acc => q ++ acc) []

/-- Built-in allocatability thresholds (`master/constants.hpp`):
`MIN_CPUS = 0.01` cpus.  Cpu amounts in this embedding are integers in
milli-cpus (the C++ code uses doubles; every amount the tests exercise is
an exact multiple of 0.001 cpus), so the threshold reads 10. -/
def MIN_CPUS : ℤ := 10

/-- `MIN_MEM = 32` megabytes (memory amounts are integers in megabytes). -/
def MIN_MEM : ℤ := 32

/-- Modelled from the spec: the allocatable threshold of the missing
`HierarchicalAllocatorProcess::allocatable` — a slice contributes to an
offer only if it has at least `MIN_CPUS` of cpu OR at least `MIN_MEM` of
memory, over the combined slice. -/
def allocatable (r : Resources) : Bool :=
  MIN_CPUS ≤ qget (qOf r) "cpus" || MIN_MEM ≤ qget (qOf r) "mem"

/-- Modelled from the spec: a framework — identity, role, capability set,
active bit, suppressed bit (data model §3 of the spec). -/
structure Fw where
  id : String
  role : String
  revocableCap : Bool
  sharedCap : Bool
  gpuCap : Bool
  active : Bool
  suppressed : Bool
deriving DecidableEq, Repr

/-- Modelled from the spec: an agent — identity, total resources and the
per-framework allocation map; `available = total − allocated`. -/
structure Ag where
  id : String
  total : Resources
  allocated : List (String × Resources)
deriving DecidableEq, Repr

/-- Sum of a framework-indexed allocation map. -/
def allocSum (m : List (String × Resources)) : Resources :=
  m.foldr (fun p acc => p.2 ++ acc) []

/-- The agent's currently free resources, normalised (one item per tag,
positive amounts): `total − allocated` with per-tag truncation, as
`Resources` subtraction behaves. -/
def Ag.available (a : Ag) : Resources := rsub a.total (allocSum a.allocated)

/-- Modelled from the spec: an offer filter installed by a decline
(`RefusedOfferFilter`).  `deadline` is the wall-clock refusal deadline
(install time + refuse_seconds); `removal` is when the allocator actually
drops the filter.  The tests (`OfferFilter`, `SmallOfferFilterTimeout`)
pin `removal = install + max(allocation_interval, refuse_seconds)`:
the filter survives until at least one allocation interval has passed,
which is how MESOS-4302 is implemented. -/
structure OFilter where
  fwId : String
  agId : String
  resources : Resources
  deadline : ℤ
  removal : ℤ
  seq : Nat
deriving DecidableEq, Repr

/-- One allocation decision inside a round: framework, agent, resources. -/
structure Alloc where
  fw : String
  ag : String
  res : Resources
deriving DecidableEq, Repr

/-- The read-only context of one allocation round. -/
structure REnv where
  interval : ℤ
  frameworks : List Fw
  quotas : List (String × Resources)
  weights : List (String × ℤ)
  filters : List OFilter
deriving Repr

/-- The state a round mutates: agents' allocations plus the sorters'
bookkeeping (recorded allocations and per-client allocation counts — the
DRF sorter tracks these separately from the agents, which is why the
`NoDoubleAccounting` test exists). -/
structure RState where
  agents : List Ag
  sorterAlloc : List (String × Resources)
  fwCounts : List (String × Nat)
  roleCounts : List (String × Nat)
deriving DecidableEq, Repr

/-- Look up an association list, defaulting to an empty vector. -/
def assocRes (m : List (String × Resources)) (k : String) : Resources :=
  match m.find? (fun p => p.1 == k) with
  | some p => p.2
  | none => []

/-- Add resources to one key of an association map (the maps model hash
maps, so only the first occurrence of a key is touched; append-if-new). -/
def assocAdd (m : List (String × Resources)) (k : String) (r : Resources) :
    List (String × Resources) :=
  match m with
  | [] => [(k, r)]
  | p :: t => if p.1 == k then (p.1, p.2 ++ r) :: t else p :: assocAdd t k r

/-- Subtract resources from one key of an association map. -/
def assocSub (m : List (String × Resources)) (k : String) (r : Resources) :
    List (String × Resources) :=
  match m with
  | [] => []
  | p :: t => if p.1 == k then (p.1, rsub p.2 r) :: t else p :: assocSub t k r

/-- Bump a counter map (append-if-new). -/
def bumpCount (m : List (String × Nat)) (k : String) : List (String × Nat) :=
  match m with
  | [] => [(k, 1)]
  | p :: t => if p.1 == k then (p.1, p.2 + 1) :: t else p :: bumpCount t k

/-- Read a counter map. -/
def getCount (m : List (String × Nat)) (k : String) : Nat :=
  match m.find? (fun p => p.1 == k) with
  | some p => p.2
  | none => 0

/-- Look up an agent by id. -/
def lookupAg (l : List Ag) (i : String) : Option Ag :=
  l.find? (fun a => a.id == i)

/-- Look up a framework by id. -/
def lookupFw (l : List Fw) (i : String) : Option Fw :=
  l.find? (fun f => f.id == i)

/-- A role's weight; the default weight is 1 (weights are integral in
every scenario the tests exercise). -/
def weightOf (env : REnv) (ρ : String) : ℤ :=
  match env.weights.find? (fun p => p.1 == ρ) with
  | some p => p.2
  | none => 1

/-- A share is an unreduced fraction (numerator, denominator): rational
division does not evaluate inside the kernel, so shares are compared by
cross-multiplication instead. -/
abbrev Frac := ℤ × ℤ

/-- Clamp a fraction to denominator 1 if the denominator is not positive
(every fraction the model builds already has a positive denominator; the
clamp makes the comparison a total preorder on all of `Frac`). -/
def fnorm (x : Frac) : Frac := if x.2 ≤ 0 then (0, 1) else x

/-- Fraction comparison by cross-multiplication. -/
def fracLe (x y : Frac) : Prop :=
  (fnorm x).1 * (fnorm y).2 ≤ (fnorm y).1 * (fnorm x).2

instance fracLeDec : DecidableRel fracLe := by
  intro x y
  unfold fracLe
  infer_instance

/-- Strict fraction comparison. -/
def fracLt (x y : Frac) : Prop := fracLe x y ∧ ¬ fracLe y x

instance fracLtDec : DecidableRel fracLt := by
  intro x y
  unfold fracLt
  infer_instance

/-- Fraction equivalence (equal rational values). -/
def fracEquiv (x y : Frac) : Prop := fracLe x y ∧ fracLe y x

instance fracEquivDec : DecidableRel fracEquiv := by
  intro x y
  unfold fracEquiv
  infer_instance

/-- The larger of two fractions. -/
def fracMax (x y : Frac) : Frac := if fracLe x y then y else x

/-- A role's quota guarantee, if set. -/
def quotaOf (env : REnv) (ρ : String) : Option Resources :=
  match env.quotas.find? (fun p => p.1 == ρ) with
  | some p => some p.2
  | none => none

/-- Total cluster resources as name-keyed quantities. -/
def totalQ (rs : RState) : Quant := qsum (rs.agents.map (fun a => qOf a.total))

/-- The quantities the sorter has recorded for one framework. -/
def fwAllocQ (rs : RState) (f : String) : Quant := qOf (assocRes rs.sorterAlloc f)

/-- The frameworks registered in a role. -/
def fwsOfRole (env : REnv) (ρ : String) : List Fw :=
  env.frameworks.filter (fun f => f.role == ρ)

/-- The quantities the sorters have recorded against a role (the basis of
both the role's dominant share and its quota charge). -/
def roleAllocQ (env : REnv) (rs : RState) (ρ : String) : Quant :=
  qsum ((fwsOfRole env ρ).map (fun f => fwAllocQ rs f.id))

/-- Modelled from the spec: the dominant share of an allocation against a
total — `max` over resource names of `allocation/total`, a name with
non-positive total contributing zero. -/
def dshare (alloc total : Quant) : Frac :=
  (qnames alloc).foldr (fun n m =>
    fracMax (if qget total n ≤ 0 then (0, 1) else (qget alloc n, qget total n)) m)
    (0, 1)

/-- A role's weighted dominant share (`share / weight`). -/
def roleShare (env : REnv) (rs : RState) (ρ : String) : Frac :=
  let s := dshare (roleAllocQ env rs ρ) (totalQ rs)
  (s.1, s.2 * weightOf env ρ)

/-- A framework's dominant share inside its role (framework sorters use
weight 1 for every client). -/
def fwShare (rs : RState) (f : String) : Frac := dshare (fwAllocQ rs f) (totalQ rs)

/-- Lexicographic comparison of character lists by code point (the order
`std::string` comparison gives on the sorter client names). -/
def strLeB : List Char → List Char → Bool
  | [], _ => true
  | _ :: _, [] => false
  | x :: xs, y :: ys =>
    if x.toNat < y.toNat then true
    else if y.toNat < x.toNat then false
    else strLeB xs ys

/-- The DRF sorter's comparison key: (weighted dominant share, number of
allocations received, client name).  The allocation count is the round-robin
tie breaker of `DRFComparator` exercised by the `SameShareFairness` and
`SharedResourcesCapability` tests; the final tie breaker is the client name. -/
def keyLe (x y : Frac × Nat × String) : Prop :=
  fracLt x.1 y.1 ∨
    (fracEquiv x.1 y.1 ∧
      (x.2.1 < y.2.1 ∨ (x.2.1 = y.2.1 ∧ strLeB x.2.2.data y.2.2.data = true)))

instance keyLeDec : DecidableRel keyLe := by
  intro x y
  unfold keyLe
  infer_instance

/-- Sorter keys of roles in a given round state. -/
def roleKey (env : REnv) (rs : RState) (ρ : String) : Frac × Nat × String :=
  (roleShare env rs ρ, getCount rs.roleCounts ρ, ρ)

/-- Sorter keys of frameworks in a given round state. -/
def fwKey (rs : RState) (f : String) : Frac × Nat × String :=
  (fwShare rs f, getCount rs.fwCounts f, f)

/-- A framework participates in allocation iff it is active and has not
suppressed offers. -/
def Fw.participates (f : Fw) : Bool := f.active && !f.suppressed

/-- Roles with at least one participating framework, in insertion order. -/
def activeRoles (env : REnv) : List String :=
  ((env.frameworks.filter Fw.participates).map (fun f => f.role)).dedup

/-- Whether a role has a participating framework. -/
def roleActive (env : REnv) (ρ : String) : Bool :=
  (env.frameworks.filter Fw.participates).any (fun f => f.role == ρ)

/-- `sort()` of the role sorter: active roles in ascending weighted
dominant share order (ties: allocation count, then name). -/
def roleSort (env : REnv) (rs : RState) : List String :=
  List.insertionSort (fun x y => keyLe (roleKey env rs x) (roleKey env rs y))
    (activeRoles env)

/-- `sort()` of the quota role sorter: all quota'ed roles (frameworkless
ones included — stage 1 skips them itself), ascending by share. -/
def quotaRoleSort (env : REnv) (rs : RState) : List String :=
  List.insertionSort (fun x y => keyLe (roleKey env rs x) (roleKey env rs y))
    (env.quotas.map (fun p => p.1))

/-- `sort()` of a role's framework sorter: that role's participating
frameworks in ascending dominant share order. -/
def fwSort (env : REnv) (rs : RState) (ρ : String) : List Fw :=
  List.insertionSort (fun x y => keyLe (fwKey rs x.id) (fwKey rs y.id))
    ((fwsOfRole env ρ).filter Fw.participates)

/-- Modelled from the spec: a candidate offer is filtered iff a matching
installed filter exists — same framework, same agent, candidate contained
in the refused resources (§4.4). -/
def isFiltered (env : REnv) (f a : String) (r : Resources) : Bool :=
  env.filters.any (fun ϕ => ϕ.fwId == f && ϕ.agId == a && rcontains ϕ.resources r)

/-- Whether a role has a quota set. -/
def hasQuota (env : REnv) (ρ : String) : Bool :=
  env.quotas.any (fun p => p.1 == ρ)

/-- The quantities a role needs for its guarantee but has not charged yet. -/
def unsatisfiedQ (env : REnv) (rs : RState) (ρ : String) (g : Resources) : Quant :=
  qsub (qOf g) (roleAllocQ env rs ρ)

/-- Modelled from the spec (§4.5): the head-room laid away for quota'ed
roles — the sum over all quota'ed roles of their unsatisfied guarantees.
NOTE: the spec prose says frameworkless quota'ed roles do not consume
head-room, but the repository's `QuotaAbsentFramework` test pins the
opposite (agent1's resources are laid away for a role with no frameworks),
so the sum ranges over every quota'ed role. -/
def headroomQ (env : REnv) (rs : RState) : Quant :=
  qsum (env.quotas.map (fun p => unsatisfiedQ env rs p.1 p.2))

/-- Framework `f` misses the GPU capability while the agent has gpus; such
an agent is not offered to `f` at all (`GPU_RESOURCES` semantics). -/
def gpuSkip (f : Fw) (a : Ag) : Bool :=
  !f.gpuCap && decide (0 < qget (qOf a.total) "gpus")

/-- Stage-1 candidate: the agent's available unreserved resources plus the
resources reserved to the quota'ed role, non-revocable (quota is satisfied
from non-revocable resources only), with shared volumes stripped for
frameworks without the capability. -/
def candidate1 (a : Ag) (f : Fw) : Resources :=
  let base := nonRevocableOf (unreservedOf a.available ++ reservedTo f.role a.available)
  if f.sharedCap then base else nonSharedOf base

/-- Stage-2 candidate: resources reserved to the framework's role, plus —
for roles without quota — the unreserved available resources (quota'ed
roles receive unreserved resources only in stage 1, as the `DRFWithQuota`
test pins); stripped by the framework's capabilities. -/
def candidate2 (env : REnv) (a : Ag) (f : Fw) : Resources :=
  let base := reservedTo f.role a.available ++
    (if hasQuota env f.role then [] else unreservedOf a.available)
  let base := if f.revocableCap then base else nonRevocableOf base
  if f.sharedCap then base else nonSharedOf base

/-- Replace the resources stored under the first occurrence of a key. -/
def assocSet (m : List (String × Resources)) (k : String) (r : Resources) :
    List (String × Resources) :=
  match m with
  | [] => []
  | p :: t => if p.1 == k then (p.1, r) :: t else p :: assocSet t k r

/-- Update the first agent with a matching id (the agent registry models
a hash map keyed by agent id). -/
def updateAg (l : List Ag) (i : String) (g : Ag → Ag) : List Ag :=
  match l with
  | [] => []
  | a :: t => if a.id == i then g a :: t else a :: updateAg t i g

/-- Record one allocation: it updates the agent's allocation map and the
sorters' recorded allocation and round-robin counters. -/
def applyAlloc (rs : RState) (ρ f a : String) (r : Resources) : RState :=
  { agents := updateAg rs.agents a (fun x => { x with allocated := assocAdd x.allocated f r }),
    sorterAlloc := assocAdd rs.sorterAlloc f r,
    fwCounts := bumpCount rs.fwCounts f,
    roleCounts := bumpCount rs.roleCounts ρ }

/-- Stage-1 framework loop for one agent and one quota'ed role: the first
framework whose candidate is allocatable and unfiltered takes the whole
slice; an unallocatable candidate ends the loop for this role (every later
framework would see the same slice). -/
def s1fws (env : REnv) (aId ρ : String) :
    List Fw → RState → RState × List Alloc
  | [], rs => (rs, [])
  | f :: fs, rs =>
    match lookupAg rs.agents aId with
    | none => (rs, [])
    | some a =>
      if gpuSkip f a then s1fws env aId ρ fs rs
      else
        let cand := candidate1 a f
        if !allocatable cand then (rs, [])
        else if isFiltered env f.id aId cand then s1fws env aId ρ fs rs
        else
          let rs1 := applyAlloc rs ρ f.id aId cand
          let (rs2, as) := s1fws env aId ρ fs rs1
          (rs2, ⟨f.id, aId, cand⟩ :: as)

/-- Stage-1 role loop for one agent: walk the quota'ed roles in sorted
order, skipping roles with no participating framework and roles whose
quota charge already contains the guarantee. -/
def s1roles (env : REnv) (aId : String) :
    List String → RState → RState × List Alloc
  | [], rs => (rs, [])
  | ρ :: rest, rs =>
    match quotaOf env ρ with
    | none => s1roles env aId rest rs
    | some g =>
      if !roleActive env ρ then s1roles env aId rest rs
      else if qle (qOf g) (roleAllocQ env rs ρ) then s1roles env aId rest rs
      else
        let (rs1, as) := s1fws env aId ρ (fwSort env rs ρ) rs
        let (rs2, as2) := s1roles env aId rest rs1
        (rs2, as ++ as2)

/-- Stage 1 — the quota stage, walking agents in the given order. -/
def stage1 (env : REnv) : List String → RState → RState × List Alloc
  | [], rs => (rs, [])
  | aId :: rest, rs =>
    let (rs1, as) := s1roles env aId (quotaRoleSort env rs) rs
    let (rs2, as2) := stage1 env rest rs1
    (rs2, as ++ as2)

/-- Stage-2 framework loop for one agent and one role, carrying the
quantities allocated so far in stage 2: a candidate is skipped if it is
unallocatable, filtered, or would push stage 2 beyond the remaining
cluster pool (the laid-away head-room). -/
def s2fws (env : REnv) (aId ρ : String) (remaining : Quant) :
    List Fw → RState × Quant → (RState × Quant) × List Alloc
  | [], st => (st, [])
  | f :: fs, (rs, acc) =>
    match lookupAg rs.agents aId with
    | none => ((rs, acc), [])
    | some a =>
      if gpuSkip f a then s2fws env aId ρ remaining fs (rs, acc)
      else
        let cand := candidate2 env a f
        if !allocatable cand then s2fws env aId ρ remaining fs (rs, acc)
        else if isFiltered env f.id aId cand then s2fws env aId ρ remaining fs (rs, acc)
        else if !qle (acc ++ qOf cand) remaining then s2fws env aId ρ remaining fs (rs, acc)
        else
          let rs1 := applyAlloc rs ρ f.id aId cand
          let (st2, as) := s2fws env aId ρ remaining fs (rs1, acc ++ qOf cand)
          (st2, ⟨f.id, aId, cand⟩ :: as)

/-- Stage-2 role loop for one agent. -/
def s2roles (env : REnv) (aId : String) (remaining : Quant) :
    List String → RState × Quant → (RState × Quant) × List Alloc
  | [], st => (st, [])
  | ρ :: rest, st =>
    let (st1, as) := s2fws env aId ρ remaining (fwSort env st.1 ρ) st
    let (st2, as2) := s2roles env aId remaining rest st1
    (st2, as ++ as2)

/-- Stage-2 agent loop. -/
def s2agents (env : REnv) (remaining : Quant) :
    List String → RState × Quant → (RState × Quant) × List Alloc
  | [], st => (st, [])
  | aId :: rest, st =>
    let (st1, as) := s2roles env aId remaining (roleSort env st.1) st
    let (st2, as2) := s2agents env remaining rest st1
    (st2, as ++ as2)

/-- Cluster-wide free quantities: the sum of every agent's available
resources, stripped to name-keyed quantities. -/
def freeQ (rs : RState) : Quant := qsum (rs.agents.map (fun a => qOf a.available))

/-- Stage 2 — the fair-share stage.  The pool it may hand out is the
cluster's free quantities minus the laid-away head-room (spec §4.6:
`pool = cluster_available − stage_A_allocations − headroom`). -/
def stage2 (env : REnv) (ids : List String) (rs : RState) : RState × List Alloc :=
  let remaining := qsub (freeQ rs) (headroomQ env rs)
  let (st, as) := s2agents env remaining ids (rs, [])
  (st.1, as)

/-- One allocation round over the given agents: the quota stage, then the
fair-share stage (the inverse-offer stage touches no allocation state and
is omitted — no claim concerns it). -/
def roundRun (env : REnv) (ids : List String) (rs : RState) : RState × List Alloc :=
  let (rs1, as1) := stage1 env ids rs
  let (rs2, as2) := stage2 env ids rs1
  (rs2, as1 ++ as2)

/-- The whole allocator state: round state plus the read-only context,
the wall clock, the armed batch timer, the filter book, the chronological
log of rounds (time and allocations — an empty list is a round that made
no offers) and a log of filter removals (the filter's wall-clock deadline
and how many complete rounds had run after that deadline at the moment the
filter was dropped). -/
structure St where
  interval : ℤ
  clock : ℤ
  agents : List Ag
  frameworks : List Fw
  quotas : List (String × Resources)
  weights : List (String × ℤ)
  sorterAlloc : List (String × Resources)
  fwCounts : List (String × Nat)
  roleCounts : List (String × Nat)
  filters : List OFilter
  nextSeq : Nat
  batchDue : ℤ
  batchSeq : Nat
  rounds : List (ℤ × List Alloc)
  removedLog : List (ℤ × Nat)
deriving DecidableEq, Repr

/-- The read-only round context of a state. -/
def St.env (s : St) : REnv :=
  ⟨s.interval, s.frameworks, s.quotas, s.weights, s.filters⟩

/-- The mutable round state of a state. -/
def St.rstate (s : St) : RState :=
  ⟨s.agents, s.sorterAlloc, s.fwCounts, s.roleCounts⟩

/-- Write a round state back. -/
def St.putR (s : St) (rs : RState) : St :=
  { s with agents := rs.agents, sorterAlloc := rs.sorterAlloc,
           fwCounts := rs.fwCounts, roleCounts := rs.roleCounts }

/-- Run one allocation round over the given agents and log it. -/
def allocate (ids : List String) (s : St) : St :=
  let (rs, as) := roundRun s.env ids s.rstate
  { s.putR rs with rounds := s.rounds ++ [(s.clock, as)] }

/-- Run a round over every agent. -/
def allocateAll (s : St) : St := allocate (s.agents.map (fun a => a.id)) s

/-- `initialize(interval, …)`: the batch timer is armed one interval out. -/
def initState (interval : ℤ) : St :=
  ⟨interval, 0, [], [], [], [], [], [], [], [], 1, interval, 0, [], []⟩

/-- `addSlave(id, total, used)`: registers the agent with its existing
per-framework allocations; the sorters record an allocation only for
frameworks that are already registered (the other half arrives with
`addFramework` — `NoDoubleAccounting`).  Triggers an event round for the
new agent. -/
def addSlave (i : String) (total : Resources) (used : List (String × Resources))
    (s : St) : St :=
  let s1 := { s with agents := s.agents ++ [⟨i, total, used⟩] }
  let s2 := used.foldl (fun t p =>
    match lookupFw t.frameworks p.1 with
    | none => t
    | some f =>
      { t with sorterAlloc := assocAdd t.sorterAlloc p.1 p.2,
               fwCounts := bumpCount t.fwCounts p.1,
               roleCounts := bumpCount t.roleCounts f.role }) s1
  allocate [i] s2

/-- `addFramework(id, info, used, active)`: registers the framework; for
agents already known, the sorters record the carried allocations.
Triggers a round over every agent. -/
def addFramework (f : Fw) (used : List (String × Resources)) (s : St) : St :=
  let s1 := { s with frameworks := s.frameworks ++ [f] }
  let s2 := used.foldl (fun t p =>
    match lookupAg t.agents p.1 with
    | none => t
    | some _ =>
      { t with sorterAlloc := assocAdd t.sorterAlloc f.id p.2,
               fwCounts := bumpCount t.fwCounts f.id,
               roleCounts := bumpCount t.roleCounts f.role }) s1
  allocateAll s2

/-- `updateSlave(id, oversubscribed)`: the agent's total becomes its
non-revocable total plus the new revocable estimate; triggers an event
round for the agent. -/
def updateSlave (i : String) (oversubscribed : Resources) (s : St) : St :=
  let s1 := { s with agents := updateAg s.agents i (fun a =>
    { a with total := nonRevocableOf a.total ++ oversubscribed }) }
  allocate [i] s1

/-- `setQuota(role, guarantee)`: triggers a round. -/
def setQuota (ρ : String) (g : Resources) (s : St) : St :=
  allocateAll { s with quotas := s.quotas ++ [(ρ, g)] }

/-- `recoverResources(framework, agent, resources, filter?)`: returns the
resources to the agent and the sorters; a positive refusal installs an
offer filter whose removal is scheduled at `max(interval, refuse)` from
now (MESOS-4302, pinned by `OfferFilter` and `SmallOfferFilterTimeout`).
Does not trigger an allocation. -/
def recoverResources (f a : String) (r : Resources) (refuse : Option ℤ)
    (s : St) : St :=
  let s1 := { s with
    agents := updateAg s.agents a (fun x => { x with allocated := assocSub x.allocated f r }),
    sorterAlloc := if (lookupFw s.frameworks f).isSome
      then assocSub s.sorterAlloc f r else s.sorterAlloc }
  match refuse with
  | none => s1
  | some t =>
    if t ≤ 0 then s1 else
    { s1 with
      filters := s1.filters ++
        [⟨f, a, r, s1.clock + t, s1.clock + max s1.interval t, s1.nextSeq⟩],
      nextSeq := s1.nextSeq + 1 }

/-- An in-place offer operation (the two kinds the claims exercise). -/
inductive Operation where
  | reserve (r : Resources)
  | create (volume : ResKey) (amount : ℤ)
deriving DecidableEq, Repr

/-- Make a tag unreserved. -/
def toUnreserved (k : ResKey) : ResKey := { k with role := "*" }

/-- Make a resource vector unreserved tag by tag. -/
def flattenRes (r : Resources) : Resources :=
  r.map (fun p => (toUnreserved p.1, p.2))

/-- Apply one operation to a resource vector, failing if the vector does
not contain what the operation consumes: RESERVE converts unreserved
items into their reserved counterparts; CREATE converts a plain disk
quantity into a (possibly shared) volume. -/
def applyOp (r : Resources) : Operation → Except String Resources
  | .reserve res =>
    if rcontains r (flattenRes res) then .ok (rsub r (flattenRes res) ++ res)
    else .error "insufficient"
  | .create k amt =>
    let base : Resources := [({ k with shared := false }, amt)]
    if rcontains r base then .ok (rsub r base ++ [(k, amt)])
    else .error "insufficient"

/-- Apply operations left to right. -/
def applyOps (r : Resources) : List Operation → Except String Resources
  | [] => .ok r
  | op :: ops => do applyOps (← applyOp r op) ops

/-- `updateAvailable(agent, ops)`: applies the operations to the agent's
available (unallocated) resources; on failure the future fails and the
state is untouched, on success the agent's total is adjusted by the
transformation of the available slice.  Does not trigger an allocation. -/
def updateAvailable (i : String) (ops : List Operation) (s : St) :
    Except String St :=
  match lookupAg s.agents i with
  | none => .error "no such agent"
  | some a =>
    match applyOps a.available ops with
    | .error e => .error e
    | .ok avail2 =>
      .ok { s with agents := updateAg s.agents i (fun x =>
        { x with total := rsub x.total a.available ++ avail2 }) }

/-- `updateAllocation(framework, agent, consumed, ops)`: applies the
operations to the resources the framework holds on the agent, updating the
agent's total, the agent's allocation to the framework, and the sorters'
records (value-preserving in quantity terms). -/
def updateAllocation (f a : String) (ops : List Operation) (s : St) : St :=
  match lookupAg s.agents a with
  | none => s
  | some ag =>
    match applyOps (assocRes ag.allocated f) ops with
    | .error _ => s
    | .ok alloc2 =>
      let old := assocRes ag.allocated f
      { s with
        agents := updateAg s.agents a (fun x =>
          { x with
            total := rsub x.total old ++ alloc2,
            allocated := assocSet x.allocated f alloc2 }),
        sorterAlloc := assocAdd (assocSub s.sorterAlloc f old) f alloc2 }

/-- The due events inside a clock window: the armed batch tick and every
filter-removal timer, each tagged with its creation sequence number.
Simultaneous timers fire in creation order, which is what makes the
`OfferFilter` and `SmallOfferFilterTimeout` test behaviours come out. -/
def dueEvents (s : St) (target : ℤ) : List (ℤ × Nat × Bool × Nat) :=
  (if s.batchDue ≤ target then [(s.batchDue, s.batchSeq, true, 0)] else []) ++
  (s.filters.filter (fun ϕ => ϕ.removal ≤ target)).map
    (fun ϕ => (ϕ.removal, ϕ.seq, false, ϕ.seq))

/-- Pick the earliest due event (ordering by time, then creation). -/
def pickEvent (s : St) (target : ℤ) : Option (ℤ × Nat × Bool × Nat) :=
  (dueEvents s target).foldl (fun best e =>
    match best with
    | none => some e
    | some b =>
      if e.1 < b.1 ∨ (e.1 = b.1 ∧ e.2.1 < b.2.1) then some e else some b) none

/-- Fire one event: a batch tick runs a round over every agent and rearms
the timer one interval out; a removal drops the filter and logs how many
complete rounds had run after its wall-clock deadline. -/
def fireEvent (s : St) (e : ℤ × Nat × Bool × Nat) : St :=
  if e.2.2.1 then
    let s1 := allocateAll { s with clock := e.1 }
    { s1 with batchDue := e.1 + s1.interval, batchSeq := s1.nextSeq,
              nextSeq := s1.nextSeq + 1 }
  else
    match s.filters.find? (fun ϕ => ϕ.seq == e.2.2.2) with
    | none => { s with clock := e.1 }
    | some ϕ =>
      { s with clock := e.1,
               filters := s.filters.filter (fun ψ => ψ.seq != e.2.2.2),
               removedLog := s.removedLog ++
                 [(ϕ.deadline, (s.rounds.filter (fun rd => ϕ.deadline < rd.1)).length)] }

/-- Process every event due up to the target time, in (time, creation)
order, with explicit fuel (the scenarios never need more than a handful of
events per advance). -/
def advanceFuel : Nat → ℤ → St → St
  | 0, target, s => { s with clock := target }
  | n + 1, target, s =>
    match pickEvent s target with
    | none => { s with clock := target }
    | some e => advanceFuel n target (fireEvent s e)

/-- `Clock::advance(d)` followed by `Clock::settle()`. -/
def advanceClock (d : ℤ) (s : St) : St := advanceFuel 64 (s.clock + d) s

/-- Shorthand: unreserved cpus and mem. -/
def resCM (c m : ℤ) : Resources := [(plainKey "cpus", c), (plainKey "mem", m)]

/-- Shorthand: cpus reserved to a role. -/
def cpusR (ρ : String) (c : ℤ) : Resources := [(⟨"cpus", ρ, false, false⟩, c)]

/-- Shorthand: mem reserved to a role. -/
def memR (ρ : String) (m : ℤ) : Resources := [(⟨"mem", ρ, false, false⟩, m)]

/-- Shorthand: revocable cpus. -/
def revCpus (c : ℤ) : Resources := [(⟨"cpus", "*", true, false⟩, c)]

/-- A plain framework in a role with no optional capabilities. -/
def mkFw (i ρ : String) : Fw := ⟨i, ρ, false, false, false, true, false⟩

/-- What a framework currently holds on an agent. -/
def heldBy (s : St) (f a : String) : Resources :=
  match lookupAg s.agents a with
  | some ag => assocRes ag.allocated f
  | none => []

/-- Scenario S1 / test `UnreservedDRF` (the C4 sequence): agents and
frameworks added one at a time; each new agent's resources go in full to
the framework with the smallest share. -/
def drfS1 : St := addSlave "a1" (resCM 2000 1024) [] (initState 1)

def drfS2 : St := addFramework (mkFw "f1" "r1") [] drfS1

def drfS3 : St := addFramework (mkFw "f2" "r2") [] drfS2

def drfS4 : St := addSlave "a2" (resCM 1000 512) [] drfS3

def drfS5 : St := addSlave "a3" (resCM 3000 2048) [] drfS4

def drfS6 : St := addFramework (mkFw "f3" "r1") [] drfS5

def drfS7 : St := addSlave "a4" (resCM 4000 4096) [] drfS6


/-- Test `OfferFilter`: one framework declines with `refuse_seconds = 2 ×
allocation_interval`.  The filter blocks the batch round one interval later
and is dropped when the refusal deadline is reached — before any complete
round has run after that deadline. -/
def ofS1 : St := addFramework (mkFw "f1" "r") [] (initState 1)

def ofS2 : St := addSlave "a1" (resCM 1000 512) [] ofS1

def ofS3 : St := recoverResources "f1" "a1" (heldBy ofS2 "f1" "a1") (some 2) ofS2

def ofS4 : St := advanceClock 1 ofS3

def ofS5 : St := advanceClock 1 ofS4

/-- Scenario S4 / test `SmallOfferFilterTimeout`: allocation interval 60,
refusal 1 second.  `f1` already holds `a1`; `f2` receives and declines
`a2`. -/
def sofS1 : St := addFramework (mkFw "f1" "r") [] (initState 60)

def sofS2 : St := addFramework (mkFw "f2" "r") [] sofS1

def sofS3 : St := addSlave "a1" (resCM 1000 512) [("f1", resCM 1000 512)] sofS2

def sofS4 : St := addSlave "a2" (resCM 1000 512) [] sofS3

def sofS5 : St :=
  recoverResources "f2" "a2" (heldBy sofS4 "f2" "a2") (some 1) sofS4

def sofS6 : St := advanceClock 1 sofS5

def sofS7 : St := advanceClock 60 sofS6

def sofS8 : St := recoverResources "f1" "a2" (heldBy sofS7 "f1" "a2") none sofS7

def sofS9 : St := advanceClock 60 sofS8


/-- Test `QuotaAbsentFramework`: quota for role `q` which has no
frameworks; the only framework `f1` is in the non-quota'ed role `n`. -/
def qafS1 : St := setQuota "q" (resCM 2000 1024) (initState 1)

def qafS2 : St := addFramework (mkFw "f1" "n") [] qafS1

def qafS3 : St := addSlave "a1" (resCM 2000 1024) [] qafS2

def qafS4 : St := addSlave "a2" (resCM 1000 512) [] qafS3

/-- Test `MultiQuotaAbsentFrameworks`: two quota'ed roles, only `q2` has a
framework; `q1`'s guarantee does not starve `q2`. -/
def mqS1 : St := addSlave "a1" (resCM 2000 2048) [] (initState 1)

def mqS2 : St := setQuota "q1" (resCM 1000 1024) mqS1

def mqS3 : St := setQuota "q2" (resCM 2000 2048) mqS2

def mqS4 : St := addFramework (mkFw "f1" "q2") [] mqS3

/-- Test `OversubscribedNotAllocated`: the only framework has not opted in
for revocable resources. -/
def plain100 : Resources :=
  [(plainKey "cpus", 100000), (plainKey "mem", 100), (plainKey "disk", 100)]

def onaS1 : St := addSlave "a1" plain100 [] (initState 1)

def onaS2 : St := addFramework (mkFw "f1" "r1") [] onaS1

def onaS3 : St := updateSlave "a1" (revCpus 10000) onaS2

/-- Test `SharedResourcesCapability`: `f1` (no capability) creates a shared
volume, recovers everything, and is later re-offered the agent without the
shared volume; `f2` (with the capability) receives it. -/
def srcTotal : Resources :=
  [(plainKey "cpus", 100000), (plainKey "mem", 100), (⟨"disk", "r1", false, false⟩, 100)]

def sharedVol : ResKey := ⟨"disk", "r1", false, true⟩

def srcS1 : St := addSlave "a1" srcTotal [] (initState 1)

def srcS2 : St := addFramework (mkFw "f1" "r1") [] srcS1

def srcS3 : St := updateAllocation "f1" "a1" [.create sharedVol 5] srcS2

def srcS4 : St := recoverResources "f1" "a1" (heldBy srcS3 "f1" "a1") none srcS3

def srcS5 : St := advanceClock 1 srcS4

def srcS6 : St := recoverResources "f1" "a1" (heldBy srcS5 "f1" "a1") none srcS5

def srcS7 : St :=
  addFramework ⟨"f2", "r1", false, true, false, true, false⟩ [] srcS6

/-- Test `UpdateSlave` (scenario S7): oversubscription updates of 10, then
12, then 5 revocable cpus. -/
def usS1 : St := addSlave "a1" plain100 [] (initState 1)

def usS2 : St :=
  addFramework ⟨"f1", "r1", true, false, false, true, false⟩ [] usS1

def usS3 : St := updateSlave "a1" (revCpus 10000) usS2

def usS4 : St := updateSlave "a1" (revCpus 12000) usS3

def usS5 : St := updateSlave "a1" (revCpus 5000) usS4

/-- Test `Reservations`: statically reserved resources route only to their
role; `a3` is wholly reserved to the frameworkless role `r3`. -/
def rsvA1 : Resources := cpusR "r1" 2000 ++ memR "r1" 1024

def rsvA2 : Resources := cpusR "r2" 2000 ++ memR "r2" 1024 ++ resCM 1000 1024

def rsvA3 : Resources := cpusR "r3" 1000 ++ memR "r3" 1024

def rsvS1 : St := addSlave "s1" rsvA1 [] (initState 1)

def rsvS2 : St := addSlave "s2" rsvA2 [] rsvS1

def rsvS3 : St := addSlave "s3" rsvA3 [] rsvS2

def rsvS4 : St := addFramework (mkFw "f1" "r1") [] rsvS3

def rsvS5 : St := addFramework (mkFw "f2" "r2") [] rsvS4

/-- Test `Allocatable`: agents straddling the `MIN_CPUS` / `MIN_MEM`
thresholds. -/
def alcSlave1 : Resources :=
  [(plainKey "cpus", 5), (plainKey "mem", 16), (plainKey "disk", 128)]

def alcSlave2 : Resources :=
  [(plainKey "cpus", 10), (plainKey "mem", 16), (plainKey "disk", 128)]

def alcSlave3 : Resources :=
  [(plainKey "cpus", 5), (plainKey "mem", 32), (plainKey "disk", 128)]

def alcSlave4 : Resources :=
  [(plainKey "cpus", 15), (plainKey "mem", 16),
   (⟨"cpus", "r1", false, false⟩, 15), (⟨"mem", "r1", false, false⟩, 16),
   (plainKey "disk", 128)]

def alcS1 : St := addFramework (mkFw "f1" "r1") [] (initState 1)

def alcS2 : St := addSlave "s1" alcSlave1 [] alcS1

def alcS3 : St := addSlave "s2" alcSlave2 [] alcS2

def alcS4 : St := addSlave "s3" alcSlave3 [] alcS3

def alcS5 : St := addSlave "s4" alcSlave4 [] alcS4

/-- Test `UpdateAvailableSuccess` / `UpdateAvailableFail`: an operator
RESERVE of cpus:25;mem:50 for role `r1`. -/
def rsvOp : Operation :=
  .reserve [(⟨"cpus", "r1", false, false⟩, 25000), (⟨"mem", "r1", false, false⟩, 50)]

def uaS1 : St := addSlave "a1" plain100 [] (initState 1)

def uaS2 : Except String St := updateAvailable "a1" [rsvOp] uaS1

def uaS3 : St := addFramework (mkFw "f1" "r1") [] (uaS2.toOption.getD uaS1)

def uafS1 : St := addFramework (mkFw "f1" "r1") [] uaS1

def uafS2 : Except String St := updateAvailable "a1" [rsvOp] uafS1

/-- Test `NoDoubleAccounting`: identical allocations reported in the two
possible orders — `addFramework` before `addSlave` for `fA`/`aA`, and
`addSlave` before `addFramework` for `fB`/`aB`. -/
def resC1 : Resources := [(plainKey "cpus", 1000)]

def ndaS1 : St := addFramework (mkFw "fA" "R1") [("aA", resC1)] (initState 1)

def ndaS2 : St := addSlave "aA" resC1 [("fA", resC1)] ndaS1

def ndaS3 : St := addSlave "aB" resC1 [("fB", resC1)] ndaS2

def ndaS4 : St := addFramework (mkFw "fB" "R2") [("aB", resC1)] ndaS3


/-- Compact view of a round log: time and (framework, agent) pairs. -/
def roundsBrief (s : St) : List (ℤ × List (String × String)) :=
  s.rounds.map (fun p => (p.1, p.2.map (fun x => (x.fw, x.ag))))


/-- Counterexample scenario for C4's tie-break clause: two frameworks of
the same role registered in the order `z`, `a`, then one agent.  Shares
and allocation counts tie, so the DRF comparator falls back to the client
name and offers the agent to `a` — stable insertion order would pick
`z`. -/
def drfTieS1 : St := addFramework (mkFw "z" "r1") [] (initState 1)

def drfTieS2 : St := addFramework (mkFw "a" "r1") [] drfTieS1

def drfTieS3 : St := addSlave "ag" (resCM 1000 512) [] drfTieS2

/-- Test `SameShareFairness`: two same-role frameworks with equal (zero)
shares alternate whole-agent offers round for round — the allocation-count
tie breaker. -/
def ssfS1 : St := addFramework (mkFw "f1" "r1") [] (initState 1)

def ssfS2 : St := addFramework (mkFw "f2" "r1") [] ssfS1

def ssfS3 : St := addSlave "ag" (resCM 2000 1024) [] ssfS2

def ssfS4 : St := recoverResources "f1" "ag" (heldBy ssfS3 "f1" "ag") none ssfS3

def ssfS5 : St := advanceClock 1 ssfS4

def ssfS6 : St := recoverResources "f2" "ag" (heldBy ssfS5 "f2" "ag") none ssfS5

def ssfS7 : St := advanceClock 1 ssfS6

theorem rget_nil (k : ResKey) : rget [] k = 0 := rfl

theorem rget_cons (p : ResKey × ℤ) (r : Resources) (k : ResKey) :
    rget (p :: r) k = (if p.1 = k then p.2 else 0) + rget r k := by
  by_cases h : p.1 = k <;> simp [rget, h]

theorem rget_append (a b : Resources) (k : ResKey) :
    rget (a ++ b) k = rget a k + rget b k := by
  induction a with
  | nil => simp [rget_nil]
  | cons p t ih => simp only [List.cons_append, rget_cons, ih]; ring

theorem rget_nonneg (r : Resources) (h : ∀ p ∈ r, 0 ≤ p.2) (k : ResKey) :
    0 ≤ rget r k := by
  induction r with
  | nil => simp [rget_nil]
  | cons p t ih =>
    rw [rget_cons]
    have hp := h p (by simp)
    have ht := ih (fun q hq => h q (by simp [hq]))
    by_cases hk : p.1 = k <;> simp [hk] <;> linarith

theorem rget_eq_zero_of_forall (r : Resources) (k : ResKey)
    (h : ∀ p ∈ r, p.1 ≠ k) : rget r k = 0 := by
  induction r with
  | nil => rfl
  | cons p t ih =>
    rw [rget_cons]
    rw [if_neg (h p (by simp)), ih (fun q hq => h q (by simp [hq]))]
    ring

theorem mem_rkeys {r : Resources} {k : ResKey} :
    k ∈ rkeys r ↔ ∃ p ∈ r, p.1 = k := by
  simp [rkeys, List.mem_dedup, List.mem_map]

theorem rget_eq_zero_of_not_mem_rkeys (r : Resources) (k : ResKey)
    (h : k ∉ rkeys r) : rget r k = 0 := by
  refine rget_eq_zero_of_forall r k (fun p hp hk => h ?_)
  exact mem_rkeys.2 ⟨p, hp, hk⟩

theorem rget_filter (pred : ResKey → Bool) (r : Resources) (k : ResKey) :
    rget (r.filter (fun p => pred p.1)) k = if pred k then rget r k else 0 := by
  induction r with
  | nil => by_cases h : pred k <;> simp [rget_nil, h]
  | cons p t ih =>
    by_cases hp : pred p.1
    · rw [List.filter_cons_of_pos (by simpa using hp), rget_cons, ih, rget_cons]
      by_cases hk : p.1 = k
      · subst hk; simp [hp]
      · simp [hk]
    · rw [List.filter_cons_of_neg (by simpa using hp), ih, rget_cons]
      by_cases hk : p.1 = k
      · subst hk; simp [hp]
      · simp [hk]

theorem rget_keyedFilterMap (v : ResKey → ℤ) (K : List ResKey) (hnd : K.Nodup)
    (k : ResKey) :
    rget (K.filterMap (fun x => if v x ≤ 0 then none else some (x, v x))) k =
      if k ∈ K ∧ ¬ v k ≤ 0 then v k else 0 := by
  induction K with
  | nil => simp [rget_nil]
  | cons x t ih =>
    have hx : x ∉ t := (List.nodup_cons.1 hnd).1
    have iht := ih (List.nodup_cons.1 hnd).2
    rw [List.filterMap_cons]
    by_cases hvx : v x ≤ 0
    · rw [if_pos hvx, iht]
      by_cases hk : k = x
      · subst hk
        simp [hvx, hx]
      · simp [hk]
    · rw [if_neg hvx, rget_cons, iht]
      by_cases hk : k = x
      · subst hk
        simp [hvx, hx]
      · have : ¬ (x = k) := fun hc => hk hc.symm
        simp only [this, if_false]
        by_cases hm : k ∈ t <;> simp [hm, hk]

theorem rget_rsub (a b : Resources) (k : ResKey) :
    rget (rsub a b) k = max 0 (rget a k - rget b k) := by
  unfold rsub
  rw [rget_keyedFilterMap (fun x => rget a x - rget b x) _ (List.nodup_dedup _) k]
  by_cases hm : k ∈ (rkeys a ++ rkeys b).dedup
  · by_cases hv : rget a k - rget b k ≤ 0
    · simp [hm, hv, max_eq_left hv]
    · simp [hm, hv, max_eq_right (by linarith : (0:ℤ) ≤ rget a k - rget b k)]
  · have h1 : k ∉ rkeys a := fun hc => hm (List.mem_dedup.2 (List.mem_append.2 (Or.inl hc)))
    have h2 : k ∉ rkeys b := fun hc => hm (List.mem_dedup.2 (List.mem_append.2 (Or.inr hc)))
    rw [rget_eq_zero_of_not_mem_rkeys a k h1, rget_eq_zero_of_not_mem_rkeys b k h2]
    simp [hm]

theorem rsub_pos (a b : Resources) : ∀ p ∈ rsub a b, 0 < p.2 := by
  intro p hp
  simp only [rsub, List.mem_filterMap] at hp
  obtain ⟨k, _, hk⟩ := hp
  by_cases h : rget a k - rget b k ≤ 0
  · simp [h] at hk
  · simp only [h, if_false, Option.some_inj] at hk
    subst hk
    dsimp only
    linarith

theorem rget_rsub_nonneg (a b : Resources) (k : ResKey) : 0 ≤ rget (rsub a b) k := by
  rw [rget_rsub]; exact le_max_left 0 _

theorem qget_nil (n : String) : qget [] n = 0 := rfl

theorem qget_cons (p : String × ℤ) (q : Quant) (n : String) :
    qget (p :: q) n = (if p.1 = n then p.2 else 0) + qget q n := by
  by_cases h : p.1 = n <;> simp [qget, h]

theorem qget_append (a b : Quant) (n : String) :
    qget (a ++ b) n = qget a n + qget b n := by
  induction a with
  | nil => simp [qget_nil]
  | cons p t ih => simp only [List.cons_append, qget_cons, ih]; ring

theorem qget_eq_zero_of_forall (q : Quant) (n : String)
    (h : ∀ p ∈ q, p.1 ≠ n) : qget q n = 0 := by
  induction q with
  | nil => rfl
  | cons p t ih =>
    rw [qget_cons, if_neg (h p (by simp)), ih (fun x hx => h x (by simp [hx]))]
    ring

theorem mem_qnames {q : Quant} {n : String} :
    n ∈ qnames q ↔ ∃ p ∈ q, p.1 = n := by
  simp [qnames, List.mem_dedup, List.mem_map]

theorem qget_eq_zero_of_not_mem_qnames (q : Quant) (n : String)
    (h : n ∉ qnames q) : qget q n = 0 := by
  refine qget_eq_zero_of_forall q n (fun p hp hn => h ?_)
  exact mem_qnames.2 ⟨p, hp, hn⟩

theorem qget_namedFilterMap (v : String → ℤ) (K : List String) (hnd : K.Nodup)
    (n : String) :
    qget (K.filterMap (fun x => if v x ≤ 0 then none else some (x, v x))) n =
      if n ∈ K ∧ ¬ v n ≤ 0 then v n else 0 := by
  induction K with
  | nil => simp [qget_nil]
  | cons x t ih =>
    have hx : x ∉ t := (List.nodup_cons.1 hnd).1
    have iht := ih (List.nodup_cons.1 hnd).2
    rw [List.filterMap_cons]
    by_cases hvx : v x ≤ 0
    · rw [if_pos hvx, iht]
      by_cases hn : n = x
      · subst hn
        simp [hvx, hx]
      · simp [hn]
    · rw [if_neg hvx, qget_cons, iht]
      by_cases hn : n = x
      · subst hn
        simp [hvx, hx]
      · have : ¬ (x = n) := fun hc => hn hc.symm
        simp only [this, if_false]
        by_cases hm : n ∈ t <;> simp [hm, hn]

theorem qget_qsub (a b : Quant) (n : String) :
    qget (qsub a b) n = max 0 (qget a n - qget b n) := by
  unfold qsub
  rw [qget_namedFilterMap (fun x => qget a x - qget b x) _ (List.nodup_dedup _) n]
  by_cases hm : n ∈ (qnames a ++ qnames b).dedup
  · by_cases hv : qget a n - qget b n ≤ 0
    · simp [hm, hv, max_eq_left hv]
    · simp [hm, hv, max_eq_right (by linarith : (0:ℤ) ≤ qget a n - qget b n)]
  · have h1 : n ∉ qnames a := fun hc => hm (List.mem_dedup.2 (List.mem_append.2 (Or.inl hc)))
    have h2 : n ∉ qnames b := fun hc => hm (List.mem_dedup.2 (List.mem_append.2 (Or.inr hc)))
    rw [qget_eq_zero_of_not_mem_qnames a n h1, qget_eq_zero_of_not_mem_qnames b n h2]
    simp [hm]

theorem fnorm_den_pos (x : Frac) : 0 < (fnorm x).2 := by
  unfold fnorm
  by_cases h : x.2 ≤ 0
  · simp [h]
  · simp [h]; linarith

theorem fracLe_total (x y : Frac) : fracLe x y ∨ fracLe y x := by
  unfold fracLe
  rcases le_total ((fnorm x).1 * (fnorm y).2) ((fnorm y).1 * (fnorm x).2) with h | h
  · exact Or.inl h
  · exact Or.inr h

theorem fracLe_refl (x : Frac) : fracLe x x := le_refl _

theorem fracLe_trans {x y z : Frac} (h1 : fracLe x y) (h2 : fracLe y z) :
    fracLe x z := by
  unfold fracLe at *
  have hx := fnorm_den_pos x
  have hy := fnorm_den_pos y
  have hz := fnorm_den_pos z
  have m1 : (fnorm x).1 * (fnorm y).2 * (fnorm z).2 ≤
      (fnorm y).1 * (fnorm x).2 * (fnorm z).2 :=
    mul_le_mul_of_nonneg_right h1 (le_of_lt hz)
  have m2 : (fnorm y).1 * (fnorm z).2 * (fnorm x).2 ≤
      (fnorm z).1 * (fnorm y).2 * (fnorm x).2 :=
    mul_le_mul_of_nonneg_right h2 (le_of_lt hx)
  have key : (fnorm x).1 * (fnorm z).2 * (fnorm y).2 ≤
      (fnorm z).1 * (fnorm x).2 * (fnorm y).2 := by nlinarith
  exact le_of_mul_le_mul_right key hy

theorem strLeB_total (a b : List Char) : strLeB a b = true ∨ strLeB b a = true := by
  induction a generalizing b with
  | nil => exact Or.inl rfl
  | cons x xs ih =>
    cases b with
    | nil => exact Or.inr rfl
    | cons y ys =>
      simp only [strLeB]
      rcases Nat.lt_trichotomy x.toNat y.toNat with h | h | h
      · exact Or.inl (by rw [if_pos h])
      · rw [if_neg (by omega), if_neg (by omega), if_neg (by omega), if_neg (by omega)]
        exact ih ys
      · exact Or.inr (by rw [if_pos h])

theorem strLeB_trans {a b c : List Char} (h1 : strLeB a b = true)
    (h2 : strLeB b c = true) : strLeB a c = true := by
  induction a generalizing b c with
  | nil => rfl
  | cons x xs ih =>
    cases b with
    | nil => exact absurd h1 (by simp [strLeB])
    | cons y ys =>
      cases c with
      | nil => exact absurd h2 (by simp [strLeB])
      | cons z zs =>
        simp only [strLeB] at h1 h2 ⊢
        by_cases hxy : x.toNat < y.toNat
        · by_cases hyz : y.toNat < z.toNat
          · rw [if_pos (by omega : x.toNat < z.toNat)]
          · by_cases hzy : z.toNat < y.toNat
            · rw [if_neg hyz, if_pos hzy] at h2
              exact absurd h2 (by simp)
            · rw [if_pos (by omega : x.toNat < z.toNat)]
        · by_cases hyx : y.toNat < x.toNat
          · rw [if_neg hxy, if_pos hyx] at h1
            exact absurd h1 (by simp)
          · by_cases hyz : y.toNat < z.toNat
            · rw [if_pos (by omega : x.toNat < z.toNat)]
            · by_cases hzy : z.toNat < y.toNat
              · rw [if_neg hyz, if_pos hzy] at h2
                exact absurd h2 (by simp)
              · rw [if_neg hxy, if_neg hyx] at h1
                rw [if_neg hyz, if_neg hzy] at h2
                rw [if_neg (by omega : ¬ x.toNat < z.toNat),
                  if_neg (by omega : ¬ z.toNat < x.toNat)]
                exact ih h1 h2

theorem keyLe_total (x y : Frac × Nat × String) : keyLe x y ∨ keyLe y x := by
  unfold keyLe fracLt fracEquiv
  rcases fracLe_total x.1 y.1 with h | h
  · by_cases h2 : fracLe y.1 x.1
    · rcases Nat.lt_trichotomy x.2.1 y.2.1 with hn | hn | hn
      · exact Or.inl (Or.inr ⟨⟨h, h2⟩, Or.inl hn⟩)
      · rcases strLeB_total x.2.2.data y.2.2.data with hs | hs
        · exact Or.inl (Or.inr ⟨⟨h, h2⟩, Or.inr ⟨hn, hs⟩⟩)
        · exact Or.inr (Or.inr ⟨⟨h2, h⟩, Or.inr ⟨hn.symm, hs⟩⟩)
      · exact Or.inr (Or.inr ⟨⟨h2, h⟩, Or.inl hn⟩)
    · exact Or.inl (Or.inl ⟨h, h2⟩)
  · by_cases h2 : fracLe x.1 y.1
    · rcases Nat.lt_trichotomy x.2.1 y.2.1 with hn | hn | hn
      · exact Or.inl (Or.inr ⟨⟨h2, h⟩, Or.inl hn⟩)
      · rcases strLeB_total x.2.2.data y.2.2.data with hs | hs
        · exact Or.inl (Or.inr ⟨⟨h2, h⟩, Or.inr ⟨hn, hs⟩⟩)
        · exact Or.inr (Or.inr ⟨⟨h, h2⟩, Or.inr ⟨hn.symm, hs⟩⟩)
      · exact Or.inr (Or.inr ⟨⟨h, h2⟩, Or.inl hn⟩)
    · exact Or.inr (Or.inl ⟨h, h2⟩)

theorem keyLe_trans {x y z : Frac × Nat × String} (h1 : keyLe x y)
    (h2 : keyLe y z) : keyLe x z := by
  unfold keyLe fracLt fracEquiv at *
  rcases h1 with ⟨hxy, hnyx⟩ | ⟨⟨hxy, hyx⟩, hr1⟩
  · rcases h2 with ⟨hyz, hnzy⟩ | ⟨⟨hyz, hzy⟩, _⟩
    · exact Or.inl ⟨fracLe_trans hxy hyz, fun hzx => hnyx (fracLe_trans hyz hzx)⟩
    · exact Or.inl ⟨fracLe_trans hxy hyz, fun hzx => hnyx (fracLe_trans hyz hzx)⟩
  · rcases h2 with ⟨hyz, hnzy⟩ | ⟨⟨hyz, hzy⟩, hr2⟩
    · exact Or.inl ⟨fracLe_trans hxy hyz, fun hzx => hnzy (fracLe_trans hzx hxy)⟩
    · refine Or.inr ⟨⟨fracLe_trans hxy hyz, fracLe_trans hzy hyx⟩, ?_⟩
      rcases hr1 with hn1 | ⟨he1, hs1⟩
      · rcases hr2 with hn2 | ⟨he2, _⟩
        · exact Or.inl (lt_trans hn1 hn2)
        · exact Or.inl (he2 ▸ hn1)
      · rcases hr2 with hn2 | ⟨he2, hs2⟩
        · exact Or.inl (he1 ▸ hn2)
        · exact Or.inr ⟨he1.trans he2, strLeB_trans hs1 hs2⟩

theorem sum_map_add {α : Type} (l : List α) (f g : α → ℤ) :
    (l.map (fun x => f x + g x)).sum = (l.map f).sum + (l.map g).sum := by
  induction l with
  | nil => simp
  | cons x t ih => simp [ih]; ring

theorem sum_map_ite_eq (K : List ResKey) (hnd : K.Nodup) (a : ResKey) (v : ℤ) :
    (K.map (fun k => if a = k then v else 0)).sum = if a ∈ K then v else 0 := by
  induction K with
  | nil => simp
  | cons x t ih =>
    have hx : x ∉ t := (List.nodup_cons.1 hnd).1
    have iht := ih (List.nodup_cons.1 hnd).2
    simp only [List.map_cons, List.sum_cons, iht]
    by_cases ha : a = x
    · subst ha
      simp [hx]
    · simp [ha, fun h => ha (h : a = x)]

theorem sum_map_le {α : Type} (l : List α) (f g : α → ℤ)
    (h : ∀ x ∈ l, f x ≤ g x) :
    (l.map f).sum ≤ (l.map g).sum := by
  induction l with
  | nil => simp
  | cons x t ih =>
    simp only [List.map_cons, List.sum_cons]
    have := h x (by simp)
    have := ih (fun y hy => h y (by simp [hy]))
    linarith

theorem sum_map_nonneg {α : Type} (l : List α) (f : α → ℤ)
    (h : ∀ x ∈ l, 0 ≤ f x) : 0 ≤ (l.map f).sum := by
  simpa using sum_map_le l (fun _ => 0) f h

/-- Name-keyed quantities as a sum of tag-keyed amounts over any covering
duplicate-free tag list. -/
theorem qget_qOf_eq_keysum (r : Resources) (K : List ResKey) (hnd : K.Nodup)
    (hcov : ∀ p ∈ r, p.1 ∈ K) (n : String) :
    qget (qOf r) n =
      ((K.filter (fun k => k.name == n)).map (fun k => rget r k)).sum := by
  induction r with
  | nil =>
    rw [List.sum_eq_zero]
    · rfl
    · intro x hx
      simp only [List.mem_map] at hx
      obtain ⟨k, _, hk⟩ := hx
      rw [← hk, rget_nil]
  | cons p t ih =>
    have hcovt : ∀ x ∈ t, x.1 ∈ K := fun x hx => hcov x (by simp [hx])
    have ihp := ih hcovt
    have step : ∀ k, rget (p :: t) k = (if p.1 = k then p.2 else 0) + rget t k :=
      fun k => rget_cons p t k
    calc qget (qOf (p :: t)) n
        = (if p.1.name = n then p.2 else 0) + qget (qOf t) n := by
          simp only [qOf, List.map_cons]
          rw [qget_cons]
      _ = (if p.1.name = n then p.2 else 0) +
          ((K.filter (fun k => k.name == n)).map (fun k => rget t k)).sum := by rw [ihp]
      _ = ((K.filter (fun k => k.name == n)).map (fun k => rget (p :: t) k)).sum := by
          have : ((K.filter (fun k => k.name == n)).map (fun k => rget (p :: t) k)).sum
              = ((K.filter (fun k => k.name == n)).map
                  (fun k => (if p.1 = k then p.2 else 0) + rget t k)).sum := by
            apply congrArg
            apply List.map_congr_left
            intro k _
            exact step k
          rw [this, sum_map_add, sum_map_ite_eq _ (List.Nodup.filter _ hnd)]
          have hmem : p.1 ∈ K.filter (fun k => k.name == n) ↔ p.1.name = n := by
            constructor
            · intro hm
              have := (List.mem_filter.1 hm).2
              simpa using this
            · intro hm
              exact List.mem_filter.2 ⟨hcov p (by simp), by simpa using hm⟩
          by_cases hn : p.1.name = n
          · rw [if_pos (hmem.2 hn), if_pos hn]
          · rw [if_neg (fun hc => hn (hmem.1 hc)), if_neg hn]

theorem mem_rsub_keys {a b : Resources} {p : ResKey × ℤ} (hp : p ∈ rsub a b) :
    p.1 ∈ (rkeys a ++ rkeys b).dedup := by
  simp only [rsub, List.mem_filterMap] at hp
  obtain ⟨k, hk, hke⟩ := hp
  by_cases h : rget a k - rget b k ≤ 0
  · simp [h] at hke
  · simp only [h, if_false, Option.some_inj] at hke
    rw [← hke]
    exact hk

theorem mem_candidate2 {env : REnv} {a : Ag} {f : Fw} {p : ResKey × ℤ}
    (hp : p ∈ candidate2 env a f) :
    p ∈ a.available ∧ (p.1.role = "*" ∨ p.1.role = f.role) ∧
    (f.revocableCap = false → p.1.revocable = false) ∧
    (f.sharedCap = false → p.1.shared = false) := by
  unfold candidate2 at hp
  have hshared : f.sharedCap = false → p.1.shared = false := by
    intro hc
    rw [hc] at hp
    simp only [Bool.false_eq_true, if_false, nonSharedOf, List.mem_filter] at hp
    simpa using hp.2
  have hp2 : p ∈ (if f.revocableCap then
      reservedTo f.role a.available ++
        (if hasQuota env f.role then [] else unreservedOf a.available)
    else nonRevocableOf (reservedTo f.role a.available ++
        (if hasQuota env f.role then [] else unreservedOf a.available))) := by
    by_cases hs : f.sharedCap
    · rw [hs] at hp
      simpa using hp
    · rw [Bool.eq_false_iff.2 hs] at hp
      simp only [Bool.false_eq_true, if_false, nonSharedOf, List.mem_filter] at hp
      exact hp.1
  have hrev : f.revocableCap = false → p.1.revocable = false := by
    intro hc
    rw [hc] at hp2
    simp only [Bool.false_eq_true, if_false, nonRevocableOf, List.mem_filter] at hp2
    simpa using hp2.2
  have hp3 : p ∈ reservedTo f.role a.available ++
      (if hasQuota env f.role then [] else unreservedOf a.available) := by
    by_cases hr : f.revocableCap
    · rw [hr] at hp2
      simpa using hp2
    · rw [Bool.eq_false_iff.2 hr] at hp2
      simp only [Bool.false_eq_true, if_false, nonRevocableOf, List.mem_filter] at hp2
      exact hp2.1
  rcases List.mem_append.1 hp3 with hmr | hmu
  · unfold reservedTo at hmr
    by_cases hrole : f.role = "*"
    · simp [hrole] at hmr
    · rw [if_neg hrole] at hmr
      have := List.mem_filter.1 hmr
      exact ⟨this.1, Or.inr (by simpa using this.2), hrev, hshared⟩
  · by_cases hq : hasQuota env f.role
    · simp [hq] at hmu
    · rw [if_neg (by simpa using hq)] at hmu
      have := List.mem_filter.1 hmu
      exact ⟨this.1, Or.inl (by simpa using this.2), hrev, hshared⟩

theorem mem_candidate1 {a : Ag} {f : Fw} {p : ResKey × ℤ}
    (hp : p ∈ candidate1 a f) :
    p ∈ a.available ∧ (p.1.role = "*" ∨ p.1.role = f.role) ∧
    p.1.revocable = false ∧
    (f.sharedCap = false → p.1.shared = false) := by
  unfold candidate1 at hp
  have hshared : f.sharedCap = false → p.1.shared = false := by
    intro hc
    rw [hc] at hp
    simp only [Bool.false_eq_true, if_false, nonSharedOf, List.mem_filter] at hp
    simpa using hp.2
  have hp2 : p ∈ nonRevocableOf
      (unreservedOf a.available ++ reservedTo f.role a.available) := by
    by_cases hs : f.sharedCap
    · rw [hs] at hp
      simpa using hp
    · rw [Bool.eq_false_iff.2 hs] at hp
      simp only [Bool.false_eq_true, if_false, nonSharedOf, List.mem_filter] at hp
      exact hp.1
  have := List.mem_filter.1 hp2
  have hrev : p.1.revocable = false := by simpa using this.2
  rcases List.mem_append.1 this.1 with hmu | hmr
  · have := List.mem_filter.1 hmu
    exact ⟨this.1, Or.inl (by simpa using this.2), hrev, hshared⟩
  · unfold reservedTo at hmr
    by_cases hrole : f.role = "*"
    · simp [hrole] at hmr
    · rw [if_neg hrole] at hmr
      have := List.mem_filter.1 hmr
      exact ⟨this.1, Or.inr (by simpa using this.2), hrev, hshared⟩

theorem rget_unreservedOf (r : Resources) (k : ResKey) :
    rget (unreservedOf r) k = if k.role == "*" then rget r k else 0 :=
  rget_filter (fun x => x.role == "*") r k

theorem rget_reservedTo (ρ : String) (r : Resources) (k : ResKey) :
    rget (reservedTo ρ r) k =
      if ρ = "*" then 0 else if k.role == ρ then rget r k else 0 := by
  unfold reservedTo
  by_cases h : ρ = "*"
  · simp [h, rget_nil]
  · rw [if_neg h, if_neg h]
    exact rget_filter (fun x => x.role == ρ) r k

theorem rget_filter_le (pred : ResKey → Bool) (r : Resources) (k : ResKey)
    (h : 0 ≤ rget r k) : rget (r.filter (fun p => pred p.1)) k ≤ rget r k := by
  rw [rget_filter]
  by_cases hp : pred k <;> simp [hp, h]

theorem rget_nonRevocableOf (r : Resources) (k : ResKey) :
    rget (nonRevocableOf r) k = if k.revocable == false then rget r k else 0 :=
  rget_filter (fun x => x.revocable == false) r k

theorem rget_nonSharedOf (r : Resources) (k : ResKey) :
    rget (nonSharedOf r) k = if k.shared == false then rget r k else 0 :=
  rget_filter (fun x => x.shared == false) r k

theorem rget_ite_bounds {c : Prop} [Decidable c] {x : ℤ}
    (h0 : 0 ≤ x) : 0 ≤ (if c then x else 0) ∧ (if c then x else 0) ≤ x := by
  by_cases hc : c <;> simp [hc, h0]

/-- Candidate base bounds: per tag, the reserved slice plus (for roles
without quota) the unreserved slice is non-negative and bounded by the
agent's available resources. -/
theorem rget_candBase_bounds (env : REnv) (a : Ag) (f : Fw) (k : ResKey) :
    0 ≤ rget (reservedTo f.role a.available ++
        (if hasQuota env f.role then [] else unreservedOf a.available)) k ∧
      rget (reservedTo f.role a.available ++
        (if hasQuota env f.role then [] else unreservedOf a.available)) k ≤
        rget a.available k := by
  have hav : 0 ≤ rget a.available k := rget_rsub_nonneg _ _ k
  rw [rget_append, rget_reservedTo]
  by_cases hρ : f.role = "*"
  · rw [if_pos hρ]
    by_cases hq : hasQuota env f.role
    · rw [if_pos hq]
      simpa [rget_nil] using hav
    · rw [if_neg hq, rget_unreservedOf]
      by_cases hu : (k.role == "*") <;> simp [hu, hav]
  · rw [if_neg hρ]
    by_cases hq : hasQuota env f.role
    · rw [if_pos hq]
      by_cases hk : (k.role == f.role) <;> simp [hk, rget_nil, hav]
    · rw [if_neg hq, rget_unreservedOf]
      by_cases hk : (k.role == f.role)
      · have hkr : k.role = f.role := by simpa using hk
        have hkne : ¬ ((k.role == "*") = true) := by
          simp only [beq_iff_eq]
          rw [hkr]
          exact hρ
        simp [hk, hkne, hav]
      · by_cases hu : (k.role == "*") <;> simp [hk, hu, hav]

/-- Candidate bounds: per tag, a stage-2 candidate is non-negative and
bounded by the agent's available resources. -/
theorem rget_candidate2_bounds (env : REnv) (a : Ag) (f : Fw) (k : ResKey) :
    0 ≤ rget (candidate2 env a f) k ∧
      rget (candidate2 env a f) k ≤ rget a.available k := by
  have hbase := rget_candBase_bounds env a f k
  unfold candidate2
  by_cases hs : f.sharedCap
  · rw [if_pos hs]
    by_cases hr : f.revocableCap
    · rw [if_pos hr]
      exact hbase
    · rw [if_neg hr, rget_nonRevocableOf]
      rcases rget_ite_bounds (c := (k.revocable == false) = true) hbase.1 with ⟨h1, h2⟩
      exact ⟨h1, le_trans h2 hbase.2⟩
  · rw [if_neg hs, rget_nonSharedOf]
    by_cases hr : f.revocableCap
    · rw [if_pos hr]
      rcases rget_ite_bounds (c := (k.shared == false) = true) hbase.1 with ⟨h1, h2⟩
      exact ⟨h1, le_trans h2 hbase.2⟩
    · rw [if_neg hr, rget_nonRevocableOf]
      rcases rget_ite_bounds (c := (k.revocable == false) = true) hbase.1 with ⟨h1, h2⟩
      rcases rget_ite_bounds (c := (k.shared == false) = true) h1 with ⟨h3, h4⟩
      exact ⟨h3, le_trans h4 (le_trans h2 hbase.2)⟩

/-- Candidate bounds for stage 1. -/
theorem rget_candidate1_bounds (a : Ag) (f : Fw) (k : ResKey) :
    0 ≤ rget (candidate1 a f) k ∧
      rget (candidate1 a f) k ≤ rget a.available k := by
  have hav : 0 ≤ rget a.available k := rget_rsub_nonneg _ _ k
  have hbase : 0 ≤ rget (unreservedOf a.available ++ reservedTo f.role a.available) k ∧
      rget (unreservedOf a.available ++ reservedTo f.role a.available) k ≤
        rget a.available k := by
    rw [rget_append, rget_reservedTo, rget_unreservedOf]
    by_cases hρ : f.role = "*"
    · rw [if_pos hρ]
      by_cases hu : (k.role == "*") <;> simp [hu, hav]
    · rw [if_neg hρ]
      by_cases hk : (k.role == f.role)
      · have hkr : k.role = f.role := by simpa using hk
        have hkne : ¬ ((k.role == "*") = true) := by
          simp only [beq_iff_eq]
          rw [hkr]
          exact hρ
        simp [hk, hkne, hav]
      · by_cases hu : (k.role == "*") <;> simp [hk, hu, hav]
  have hnR : 0 ≤ rget (nonRevocableOf
        (unreservedOf a.available ++ reservedTo f.role a.available)) k ∧
      rget (nonRevocableOf
        (unreservedOf a.available ++ reservedTo f.role a.available)) k ≤
        rget a.available k := by
    rw [rget_nonRevocableOf]
    rcases rget_ite_bounds (c := (k.revocable == false) = true) hbase.1 with ⟨h1, h2⟩
    exact ⟨h1, le_trans h2 hbase.2⟩
  unfold candidate1
  by_cases hs : f.sharedCap
  · rw [if_pos hs]
    exact hnR
  · rw [if_neg hs, rget_nonSharedOf]
    rcases rget_ite_bounds (c := (k.shared == false) = true) hnR.1 with ⟨h1, h2⟩
    exact ⟨h1, le_trans h2 hnR.2⟩

/-- If the agent has no gpus in total (and resource amounts are
well-formed, i.e. non-negative), then any slice bounded by its available
resources carries zero gpus. -/
theorem qget_gpus_zero_of_bounded (a : Ag) (cand : Resources)
    (hsub : ∀ p ∈ cand, p ∈ a.available)
    (hle : ∀ k, rget cand k ≤ rget a.available k)
    (hnn : ∀ k, 0 ≤ rget cand k)
    (htot : ∀ p ∈ a.total, 0 ≤ p.2)
    (halloc : ∀ p ∈ allocSum a.allocated, 0 ≤ p.2)
    (hg : ¬ 0 < qget (qOf a.total) "gpus") :
    qget (qOf cand) "gpus" = 0 := by
  set K := (rkeys a.total ++ rkeys (allocSum a.allocated)).dedup with hK
  have hnd : K.Nodup := List.nodup_dedup _
  have hcovT : ∀ p ∈ a.total, p.1 ∈ K := by
    intro p hp
    exact List.mem_dedup.2 (List.mem_append.2 (Or.inl (mem_rkeys.2 ⟨p, hp, rfl⟩)))
  have hcovA : ∀ p ∈ a.available, p.1 ∈ K := fun p hp => mem_rsub_keys hp
  have hcovC : ∀ p ∈ cand, p.1 ∈ K := fun p hp => hcovA p (hsub p hp)
  have hkeyle : ∀ k, rget cand k ≤ rget a.total k := by
    intro k
    refine le_trans (hle k) ?_
    show rget (rsub a.total (allocSum a.allocated)) k ≤ rget a.total k
    rw [rget_rsub]
    have h1 : 0 ≤ rget a.total k := rget_nonneg _ htot k
    have h2 : 0 ≤ rget (allocSum a.allocated) k := rget_nonneg _ halloc k
    rcases max_cases 0 (rget a.total k - rget (allocSum a.allocated) k) with ⟨he, _⟩ | ⟨he, _⟩
    · rw [he]; exact h1
    · rw [he]; linarith
  have e1 := qget_qOf_eq_keysum cand K hnd hcovC "gpus"
  have e2 := qget_qOf_eq_keysum a.total K hnd hcovT "gpus"
  have hub : qget (qOf cand) "gpus" ≤ qget (qOf a.total) "gpus" := by
    rw [e1, e2]
    exact sum_map_le _ _ _ (fun k _ => hkeyle k)
  have hlb : 0 ≤ qget (qOf cand) "gpus" := by
    rw [e1]
    exact sum_map_nonneg _ _ (fun k _ => hnn k)
  have : qget (qOf a.total) "gpus" ≤ 0 := by linarith [lt_or_ge 0 (qget (qOf a.total) "gpus") |>.resolve_left hg]
  linarith

/-- What every allocation a round emits satisfies: it belongs to a
registered, participating framework, meets the allocatability threshold,
every line item is unreserved or reserved to that framework's role, and
the framework's missing capabilities are respected (no revocable item, no
shared item, no gpus). -/
def AllocClean (env : REnv) (x : Alloc) : Prop :=
  ∃ f, f ∈ env.frameworks ∧ f.id = x.fw ∧ f.participates = true ∧
    allocatable x.res = true ∧
    (∀ p ∈ x.res, p.1.role = "*" ∨ p.1.role = f.role) ∧
    (f.revocableCap = false → ∀ p ∈ x.res, p.1.revocable = false) ∧
    (f.sharedCap = false → ∀ p ∈ x.res, p.1.shared = false) ∧
    (f.gpuCap = false → qget (qOf x.res) "gpus" = 0)

/-- Well-formed round state: all resource amounts on the agents are
non-negative. -/
def WFRS (rs : RState) : Prop :=
  ∀ a ∈ rs.agents, (∀ p ∈ a.total, 0 ≤ p.2) ∧ (∀ p ∈ allocSum a.allocated, 0 ≤ p.2)

theorem mem_allocSum_assocAdd {m : List (String × Resources)} {f : String}
    {r : Resources} {p : ResKey × ℤ} (hp : p ∈ allocSum (assocAdd m f r)) :
    p ∈ allocSum m ∨ p ∈ r := by
  induction m with
  | nil =>
    simp only [assocAdd, allocSum, List.foldr_cons, List.foldr_nil, List.append_nil] at hp
    exact Or.inr hp
  | cons q t ih =>
    simp only [assocAdd] at hp
    by_cases hq : q.1 == f
    · rw [if_pos hq] at hp
      simp only [allocSum, List.foldr_cons] at hp ⊢
      rcases List.mem_append.1 hp with h | h
      · rcases List.mem_append.1 h with h2 | h2
        · exact Or.inl (List.mem_append.2 (Or.inl h2))
        · exact Or.inr h2
      · exact Or.inl (List.mem_append.2 (Or.inr h))
    · rw [if_neg hq] at hp
      simp only [allocSum, List.foldr_cons] at hp ⊢
      rcases List.mem_append.1 hp with h | h
      · exact Or.inl (List.mem_append.2 (Or.inl h))
      · rcases ih h with h2 | h2
        · exact Or.inl (List.mem_append.2 (Or.inr h2))
        · exact Or.inr h2

theorem mem_updateAg {l : List Ag} {i : String} {g : Ag → Ag} {a : Ag}
    (ha : a ∈ updateAg l i g) : a ∈ l ∨ ∃ b ∈ l, a = g b := by
  induction l with
  | nil => simp [updateAg] at ha
  | cons x t ih =>
    simp only [updateAg] at ha
    by_cases hx : x.id == i
    · rw [if_pos hx] at ha
      rcases List.mem_cons.1 ha with h | h
      · exact Or.inr ⟨x, by simp, h⟩
      · exact Or.inl (List.mem_cons.2 (Or.inr h))
    · rw [if_neg hx] at ha
      rcases List.mem_cons.1 ha with h | h
      · exact Or.inl (List.mem_cons.2 (Or.inl (by rw [h])))
      · rcases ih h with h2 | ⟨b, hb, he⟩
        · exact Or.inl (List.mem_cons.2 (Or.inr h2))
        · exact Or.inr ⟨b, List.mem_cons.2 (Or.inr hb), he⟩

theorem WFRS_applyAlloc {rs : RState} {ρ f aId : String} {r : Resources}
    (hwf : WFRS rs) (hr : ∀ p ∈ r, 0 ≤ p.2) : WFRS (applyAlloc rs ρ f aId r) := by
  intro a ha
  simp only [applyAlloc] at ha
  rcases mem_updateAg ha with h | ⟨b, hb, he⟩
  · exact hwf a h
  · subst he
    rcases hwf b hb with ⟨h1, h2⟩
    refine ⟨h1, ?_⟩
    intro p hp
    rcases mem_allocSum_assocAdd hp with h3 | h3
    · exact h2 p h3
    · exact hr p h3

theorem lookupAg_mem {l : List Ag} {i : String} {a : Ag}
    (h : lookupAg l i = some a) : a ∈ l := List.mem_of_find?_eq_some h

theorem mem_fwSort {env : REnv} {rs : RState} {ρ : String} {f : Fw}
    (h : f ∈ fwSort env rs ρ) : f ∈ env.frameworks ∧ f.participates = true := by
  unfold fwSort at h
  rw [List.mem_insertionSort] at h
  have := List.mem_filter.1 h
  exact ⟨(List.mem_filter.1 this.1).1, this.2⟩

/-- The allocation-site fact: the allocated candidate is clean. -/
theorem allocClean_site {env : REnv} {rs : RState} {aId : String} {a : Ag}
    {f : Fw} {cand : Resources}
    (hwf : WFRS rs) (hla : lookupAg rs.agents aId = some a)
    (hf : f ∈ env.frameworks) (hpart : f.participates = true)
    (hgpu : gpuSkip f a = false) (halloc : allocatable cand = true)
    (hcand : (∀ p ∈ cand, p ∈ a.available) ∧
      (∀ p ∈ cand, p.1.role = "*" ∨ p.1.role = f.role) ∧
      (f.revocableCap = false → ∀ p ∈ cand, p.1.revocable = false) ∧
      (f.sharedCap = false → ∀ p ∈ cand, p.1.shared = false) ∧
      (∀ k, 0 ≤ rget cand k ∧ rget cand k ≤ rget a.available k)) :
    AllocClean env ⟨f.id, aId, cand⟩ := by
  rcases hwf a (lookupAg_mem hla) with ⟨ht, hal⟩
  refine ⟨f, hf, rfl, hpart, halloc, hcand.2.1, hcand.2.2.1, hcand.2.2.2.1, ?_⟩
  intro hgcap
  have hng : ¬ 0 < qget (qOf a.total) "gpus" := by
    unfold gpuSkip at hgpu
    rw [hgcap] at hgpu
    simpa using hgpu
  exact qget_gpus_zero_of_bounded a cand hcand.1
    (fun k => (hcand.2.2.2.2 k).2) (fun k => (hcand.2.2.2.2 k).1) ht hal hng

theorem candidate1_facts (a : Ag) (f : Fw) :
    (∀ p ∈ candidate1 a f, p ∈ a.available) ∧
    (∀ p ∈ candidate1 a f, p.1.role = "*" ∨ p.1.role = f.role) ∧
    (f.revocableCap = false → ∀ p ∈ candidate1 a f, p.1.revocable = false) ∧
    (f.sharedCap = false → ∀ p ∈ candidate1 a f, p.1.shared = false) ∧
    (∀ k, 0 ≤ rget (candidate1 a f) k ∧
      rget (candidate1 a f) k ≤ rget a.available k) :=
  ⟨fun p hp => (mem_candidate1 hp).1,
   fun p hp => (mem_candidate1 hp).2.1,
   fun _ p hp => (mem_candidate1 hp).2.2.1,
   fun hc p hp => (mem_candidate1 hp).2.2.2 hc,
   fun k => rget_candidate1_bounds a f k⟩

theorem candidate2_facts (env : REnv) (a : Ag) (f : Fw) :
    (∀ p ∈ candidate2 env a f, p ∈ a.available) ∧
    (∀ p ∈ candidate2 env a f, p.1.role = "*" ∨ p.1.role = f.role) ∧
    (f.revocableCap = false → ∀ p ∈ candidate2 env a f, p.1.revocable = false) ∧
    (f.sharedCap = false → ∀ p ∈ candidate2 env a f, p.1.shared = false) ∧
    (∀ k, 0 ≤ rget (candidate2 env a f) k ∧
      rget (candidate2 env a f) k ≤ rget a.available k) :=
  ⟨fun p hp => (mem_candidate2 hp).1,
   fun p hp => (mem_candidate2 hp).2.1,
   fun hc p hp => (mem_candidate2 hp).2.2.1 hc,
   fun hc p hp => (mem_candidate2 hp).2.2.2 hc,
   fun k => rget_candidate2_bounds env a f k⟩

theorem candidate1_entries_nonneg (a : Ag) (f : Fw) :
    ∀ p ∈ candidate1 a f, 0 ≤ p.2 := fun p hp =>
  le_of_lt (rsub_pos _ _ p ((mem_candidate1 hp).1))

theorem candidate2_entries_nonneg (env : REnv) (a : Ag) (f : Fw) :
    ∀ p ∈ candidate2 env a f, 0 ≤ p.2 := fun p hp =>
  le_of_lt (rsub_pos _ _ p ((mem_candidate2 hp).1))

theorem s1fws_clean (env : REnv) (aId ρ : String) :
    ∀ (fws : List Fw) (rs : RState), WFRS rs →
    (∀ f ∈ fws, f ∈ env.frameworks ∧ f.participates = true) →
    WFRS (s1fws env aId ρ fws rs).1 ∧
      ∀ x ∈ (s1fws env aId ρ fws rs).2, AllocClean env x := by
  intro fws
  induction fws with
  | nil =>
    intro rs hwf _
    exact ⟨hwf, by simp [s1fws]⟩
  | cons f fs ih =>
    intro rs hwf hmem
    have hf := hmem f (by simp)
    have hfs : ∀ g ∈ fs, g ∈ env.frameworks ∧ g.participates = true :=
      fun g hg => hmem g (by simp [hg])
    simp only [s1fws]
    cases hla : lookupAg rs.agents aId with
    | none => exact ⟨hwf, by simp⟩
    | some a =>
      dsimp only
      by_cases hg : gpuSkip f a
      · simpa [hg] using ih rs hwf hfs
      · rw [Bool.eq_false_iff.2 hg]
        simp only [Bool.false_eq_true, if_false]
        by_cases hal : allocatable (candidate1 a f)
        · rw [hal]
          simp only [Bool.not_true, Bool.false_eq_true, if_false]
          by_cases hfil : isFiltered env f.id aId (candidate1 a f)
          · simpa [hfil] using ih rs hwf hfs
          · rw [Bool.eq_false_iff.2 hfil]
            simp only [Bool.false_eq_true, if_false]
            have hwf2 : WFRS (applyAlloc rs ρ f.id aId (candidate1 a f)) :=
              WFRS_applyAlloc hwf (candidate1_entries_nonneg a f)
            have hrec := ih (applyAlloc rs ρ f.id aId (candidate1 a f)) hwf2 hfs
            rcases hres : s1fws env aId ρ fs (applyAlloc rs ρ f.id aId (candidate1 a f))
              with ⟨rs2, as2⟩
            rw [hres] at hrec
            refine ⟨hrec.1, ?_⟩
            intro x hx
            rcases List.mem_cons.1 hx with hx1 | hx2
            · subst hx1
              exact allocClean_site hwf hla hf.1 hf.2 (Bool.eq_false_iff.2 hg) hal
                (candidate1_facts a f)
            · exact hrec.2 x hx2
        · rw [Bool.eq_false_iff.2 hal]
          exact ⟨hwf, by simp⟩

theorem s1roles_clean (env : REnv) (aId : String) :
    ∀ (ρs : List String) (rs : RState), WFRS rs →
    WFRS (s1roles env aId ρs rs).1 ∧
      ∀ x ∈ (s1roles env aId ρs rs).2, AllocClean env x := by
  intro ρs
  induction ρs with
  | nil =>
    intro rs hwf
    exact ⟨hwf, by simp [s1roles]⟩
  | cons ρ rest ih =>
    intro rs hwf
    simp only [s1roles]
    cases hq : quotaOf env ρ with
    | none => exact ih rs hwf
    | some g =>
      dsimp only
      by_cases hact : roleActive env ρ
      · rw [hact]
        simp only [Bool.not_true, Bool.false_eq_true, if_false]
        by_cases hsat : qle (qOf g) (roleAllocQ env rs ρ)
        · simpa [hsat] using ih rs hwf
        · rw [Bool.eq_false_iff.2 hsat]
          simp only [Bool.false_eq_true, if_false]
          have h1 := s1fws_clean env aId ρ (fwSort env rs ρ) rs hwf
            (fun f hf => mem_fwSort hf)
          rcases hres : s1fws env aId ρ (fwSort env rs ρ) rs with ⟨rs1, as1⟩
          rw [hres] at h1
          have h2 := ih rs1 h1.1
          rcases hres2 : s1roles env aId rest rs1 with ⟨rs2, as2⟩
          rw [hres2] at h2
          refine ⟨h2.1, ?_⟩
          intro x hx
          rcases List.mem_append.1 hx with hx1 | hx2
          · exact h1.2 x hx1
          · exact h2.2 x hx2
      · rw [Bool.eq_false_iff.2 hact]
        simpa using ih rs hwf

theorem stage1_clean (env : REnv) :
    ∀ (ids : List String) (rs : RState), WFRS rs →
    WFRS (stage1 env ids rs).1 ∧
      ∀ x ∈ (stage1 env ids rs).2, AllocClean env x := by
  intro ids
  induction ids with
  | nil =>
    intro rs hwf
    exact ⟨hwf, by simp [stage1]⟩
  | cons aId rest ih =>
    intro rs hwf
    simp only [stage1]
    have h1 := s1roles_clean env aId (quotaRoleSort env rs) rs hwf
    rcases hres : s1roles env aId (quotaRoleSort env rs) rs with ⟨rs1, as1⟩
    rw [hres] at h1
    have h2 := ih rs1 h1.1
    rcases hres2 : stage1 env rest rs1 with ⟨rs2, as2⟩
    rw [hres2] at h2
    refine ⟨h2.1, ?_⟩
    intro x hx
    rcases List.mem_append.1 hx with hx1 | hx2
    · exact h1.2 x hx1
    · exact h2.2 x hx2

theorem s2fws_clean (env : REnv) (aId ρ : String) (remaining : Quant) :
    ∀ (fws : List Fw) (st : RState × Quant), WFRS st.1 →
    (∀ f ∈ fws, f ∈ env.frameworks ∧ f.participates = true) →
    WFRS (s2fws env aId ρ remaining fws st).1.1 ∧
      ∀ x ∈ (s2fws env aId ρ remaining fws st).2, AllocClean env x := by
  intro fws
  induction fws with
  | nil =>
    intro st hwf _
    exact ⟨hwf, by simp [s2fws]⟩
  | cons f fs ih =>
    intro st hwf hmem
    have hf := hmem f (by simp)
    have hfs : ∀ g ∈ fs, g ∈ env.frameworks ∧ g.participates = true :=
      fun g hg => hmem g (by simp [hg])
    rcases st with ⟨rs, acc⟩
    simp only [s2fws]
    cases hla : lookupAg rs.agents aId with
    | none => exact ⟨hwf, by simp⟩
    | some a =>
      dsimp only
      by_cases hg : gpuSkip f a
      · simpa [hg] using ih (rs, acc) hwf hfs
      · rw [Bool.eq_false_iff.2 hg]
        simp only [Bool.false_eq_true, if_false]
        by_cases hal : allocatable (candidate2 env a f)
        · rw [hal]
          simp only [Bool.not_true, Bool.false_eq_true, if_false]
          by_cases hfil : isFiltered env f.id aId (candidate2 env a f)
          · simpa [hfil] using ih (rs, acc) hwf hfs
          · rw [Bool.eq_false_iff.2 hfil]
            simp only [Bool.false_eq_true, if_false]
            by_cases hle : qle (acc ++ qOf (candidate2 env a f)) remaining
            · rw [hle]
              simp only [Bool.not_true, Bool.false_eq_true, if_false]
              have hwf2 : WFRS (applyAlloc rs ρ f.id aId (candidate2 env a f)) :=
                WFRS_applyAlloc hwf (candidate2_entries_nonneg env a f)
              have hrec := ih (applyAlloc rs ρ f.id aId (candidate2 env a f),
                acc ++ qOf (candidate2 env a f)) hwf2 hfs
              rcases hres : s2fws env aId ρ remaining fs
                (applyAlloc rs ρ f.id aId (candidate2 env a f),
                  acc ++ qOf (candidate2 env a f)) with ⟨st2, as2⟩
              rw [hres] at hrec
              refine ⟨hrec.1, ?_⟩
              intro x hx
              rcases List.mem_cons.1 hx with hx1 | hx2
              · subst hx1
                exact allocClean_site hwf hla hf.1 hf.2 (Bool.eq_false_iff.2 hg) hal
                  (candidate2_facts env a f)
              · exact hrec.2 x hx2
            · rw [Bool.eq_false_iff.2 hle]
              simpa using ih (rs, acc) hwf hfs
        · rw [Bool.eq_false_iff.2 hal]
          simpa using ih (rs, acc) hwf hfs

theorem s2roles_clean (env : REnv) (aId : String) (remaining : Quant) :
    ∀ (ρs : List String) (st : RState × Quant), WFRS st.1 →
    WFRS (s2roles env aId remaining ρs st).1.1 ∧
      ∀ x ∈ (s2roles env aId remaining ρs st).2, AllocClean env x := by
  intro ρs
  induction ρs with
  | nil =>
    intro st hwf
    exact ⟨hwf, by simp [s2roles]⟩
  | cons ρ rest ih =>
    intro st hwf
    simp only [s2roles]
    have h1 := s2fws_clean env aId ρ remaining (fwSort env st.1 ρ) st hwf
      (fun f hf => mem_fwSort hf)
    rcases hres : s2fws env aId ρ remaining (fwSort env st.1 ρ) st with ⟨st1, as1⟩
    rw [hres] at h1
    have h2 := ih st1 h1.1
    rcases hres2 : s2roles env aId remaining rest st1 with ⟨st2, as2⟩
    rw [hres2] at h2
    refine ⟨h2.1, ?_⟩
    intro x hx
    rcases List.mem_append.1 hx with hx1 | hx2
    · exact h1.2 x hx1
    · exact h2.2 x hx2

theorem s2agents_clean (env : REnv) (remaining : Quant) :
    ∀ (ids : List String) (st : RState × Quant), WFRS st.1 →
    WFRS (s2agents env remaining ids st).1.1 ∧
      ∀ x ∈ (s2agents env remaining ids st).2, AllocClean env x := by
  intro ids
  induction ids with
  | nil =>
    intro st hwf
    exact ⟨hwf, by simp [s2agents]⟩
  | cons aId rest ih =>
    intro st hwf
    simp only [s2agents]
    have h1 := s2roles_clean env aId remaining (roleSort env st.1) st hwf
    rcases hres : s2roles env aId remaining (roleSort env st.1) st with ⟨st1, as1⟩
    rw [hres] at h1
    have h2 := ih st1 h1.1
    rcases hres2 : s2agents env remaining rest st1 with ⟨st2, as2⟩
    rw [hres2] at h2
    refine ⟨h2.1, ?_⟩
    intro x hx
    rcases List.mem_append.1 hx with hx1 | hx2
    · exact h1.2 x hx1
    · exact h2.2 x hx2

/-- Every allocation a round emits is clean: it honours role reservations,
capabilities, and the allocatability threshold. -/
theorem roundRun_clean (env : REnv) (ids : List String) (rs : RState)
    (hwf : WFRS rs) : ∀ x ∈ (roundRun env ids rs).2, AllocClean env x := by
  unfold roundRun stage2
  have h1 := stage1_clean env ids rs hwf
  rcases hres : stage1 env ids rs with ⟨rs1, as1⟩
  rw [hres] at h1
  dsimp only
  have h2 := s2agents_clean env
    (qsub (freeQ rs1) (headroomQ env rs1)) ids (rs1, []) h1.1
  rcases hres2 : s2agents env (qsub (freeQ rs1) (headroomQ env rs1)) ids (rs1, [])
    with ⟨st2, as2⟩
  rw [hres2] at h2
  intro x hx
  rcases List.mem_append.1 hx with hx1 | hx2
  · exact h1.2 x hx1
  · exact h2.2 x hx2

/-- The quantity of one resource name charged against a role. -/
def chargedN (env : REnv) (rs : RState) (ρ n : String) : ℤ :=
  qget (roleAllocQ env rs ρ) n

/-- The role sorter really sorts: ascending weighted dominant share with
the deterministic tie breakers, over exactly the active roles. -/
theorem roleSort_sorted_perm (env : REnv) (rs : RState) :
    List.Sorted (fun x y => keyLe (roleKey env rs x) (roleKey env rs y))
      (roleSort env rs) ∧ (roleSort env rs).Perm (activeRoles env) := by
  constructor
  · haveI : IsTotal String (fun x y => keyLe (roleKey env rs x) (roleKey env rs y)) :=
      ⟨fun a b => keyLe_total _ _⟩
    haveI : IsTrans String (fun x y => keyLe (roleKey env rs x) (roleKey env rs y)) :=
      ⟨fun a b c hab hbc => keyLe_trans hab hbc⟩
    exact List.sorted_insertionSort _ _
  · exact List.perm_insertionSort _ _

/-- A role's framework sorter really sorts its participating frameworks. -/
theorem fwSort_sorted_perm (env : REnv) (rs : RState) (ρ : String) :
    List.Sorted (fun x y => keyLe (fwKey rs x.id) (fwKey rs y.id))
      (fwSort env rs ρ) ∧
    (fwSort env rs ρ).Perm ((fwsOfRole env ρ).filter Fw.participates) := by
  constructor
  · haveI : IsTotal Fw (fun x y => keyLe (fwKey rs x.id) (fwKey rs y.id)) :=
      ⟨fun a b => keyLe_total _ _⟩
    haveI : IsTrans Fw (fun x y => keyLe (fwKey rs x.id) (fwKey rs y.id)) :=
      ⟨fun a b c hab hbc => keyLe_trans hab hbc⟩
    exact List.sorted_insertionSort _ _
  · exact List.perm_insertionSort _ _

theorem candidate1_empty {a : Ag} (f : Fw) (h : a.available = []) :
    candidate1 a f = [] := by
  unfold candidate1 unreservedOf reservedTo nonRevocableOf nonSharedOf
  rw [h]
  simp

theorem candidate2_empty (env : REnv) {a : Ag} (f : Fw) (h : a.available = []) :
    candidate2 env a f = [] := by
  unfold candidate2 unreservedOf reservedTo nonRevocableOf nonSharedOf
  rw [h]
  simp

theorem allocatable_nil : allocatable [] = false := by decide

theorem s1fws_noop (env : REnv) (aId ρ : String)
    (fws : List Fw) (rs : RState)
    (hempty : ∀ a ∈ rs.agents, a.available = []) :
    s1fws env aId ρ fws rs = (rs, []) := by
  induction fws with
  | nil => simp [s1fws]
  | cons f fs ih =>
    simp only [s1fws]
    cases hla : lookupAg rs.agents aId with
    | none => rfl
    | some a =>
      dsimp only
      have hav : a.available = [] := hempty a (lookupAg_mem hla)
      by_cases hg : gpuSkip f a
      · simpa [hg] using ih
      · rw [Bool.eq_false_iff.2 hg]
        simp only [Bool.false_eq_true, if_false]
        rw [candidate1_empty f hav, allocatable_nil]
        simp

theorem s1roles_noop (env : REnv) (aId : String)
    (ρs : List String) (rs : RState)
    (hempty : ∀ a ∈ rs.agents, a.available = []) :
    s1roles env aId ρs rs = (rs, []) := by
  induction ρs with
  | nil => simp [s1roles]
  | cons ρ rest ih =>
    simp only [s1roles]
    cases hq : quotaOf env ρ with
    | none => exact ih
    | some g =>
      dsimp only
      by_cases hact : roleActive env ρ
      · rw [hact]
        simp only [Bool.not_true, Bool.false_eq_true, if_false]
        by_cases hsat : qle (qOf g) (roleAllocQ env rs ρ)
        · simpa [hsat] using ih
        · rw [Bool.eq_false_iff.2 hsat]
          simp only [Bool.false_eq_true, if_false]
          rw [s1fws_noop env aId ρ _ rs hempty]
          simpa using ih
      · rw [Bool.eq_false_iff.2 hact]
        simpa using ih

theorem stage1_noop (env : REnv) (ids : List String) (rs : RState)
    (hempty : ∀ a ∈ rs.agents, a.available = []) :
    stage1 env ids rs = (rs, []) := by
  induction ids with
  | nil => simp [stage1]
  | cons aId rest ih =>
    simp only [stage1]
    rw [s1roles_noop env aId _ rs hempty]
    simpa using ih

theorem s2fws_noop (env : REnv) (aId ρ : String) (remaining : Quant)
    (fws : List Fw) (rs : RState) (acc : Quant)
    (hempty : ∀ a ∈ rs.agents, a.available = []) :
    s2fws env aId ρ remaining fws (rs, acc) = ((rs, acc), []) := by
  induction fws with
  | nil => simp [s2fws]
  | cons f fs ih =>
    simp only [s2fws]
    cases hla : lookupAg rs.agents aId with
    | none => rfl
    | some a =>
      dsimp only
      have hav : a.available = [] := hempty a (lookupAg_mem hla)
      by_cases hg : gpuSkip f a
      · simpa [hg] using ih
      · rw [Bool.eq_false_iff.2 hg]
        simp only [Bool.false_eq_true, if_false]
        rw [candidate2_empty env f hav, allocatable_nil]
        simpa using ih

theorem s2roles_noop (env : REnv) (aId : String) (remaining : Quant)
    (ρs : List String) (rs : RState) (acc : Quant)
    (hempty : ∀ a ∈ rs.agents, a.available = []) :
    s2roles env aId remaining ρs (rs, acc) = ((rs, acc), []) := by
  induction ρs with
  | nil => simp [s2roles]
  | cons ρ rest ih =>
    simp only [s2roles]
    rw [s2fws_noop env aId ρ remaining _ rs acc hempty]
    simpa using ih

theorem s2agents_noop (env : REnv) (remaining : Quant)
    (ids : List String) (rs : RState) (acc : Quant)
    (hempty : ∀ a ∈ rs.agents, a.available = []) :
    s2agents env remaining ids (rs, acc) = ((rs, acc), []) := by
  induction ids with
  | nil => simp [s2agents]
  | cons aId rest ih =>
    simp only [s2agents]
    rw [s2roles_noop env aId remaining _ rs acc hempty]
    simpa using ih

theorem roundRun_noop (env : REnv) (ids : List String) (rs : RState)
    (hempty : ∀ a ∈ rs.agents, a.available = []) :
    roundRun env ids rs = (rs, []) := by
  unfold roundRun stage2
  rw [stage1_noop env ids rs hempty]
  dsimp only
  rw [s2agents_noop env _ ids rs [] hempty]
  rfl

theorem allocate_noop (ids : List String) (s : St)
    (hempty : ∀ a ∈ s.agents, a.available = []) :
    allocate ids s = { s with rounds := s.rounds ++ [(s.clock, [])] } := by
  unfold allocate
  rw [roundRun_noop s.env ids s.rstate hempty]
  rfl

theorem lookupFw_append_self {l : List Fw} {f : Fw}
    (h : lookupFw l f.id = none) : lookupFw (l ++ [f]) f.id = some f := by
  unfold lookupFw at *
  induction l with
  | nil => simp
  | cons x t ih =>
    by_cases hx : (x.id == f.id) = true
    · simp [List.find?, hx] at h
    · simp only [List.cons_append, List.find?, hx] at h ⊢
      exact ih h

theorem lookupAg_append_self {l : List Ag} {a : Ag}
    (h : lookupAg l a.id = none) : lookupAg (l ++ [a]) a.id = some a := by
  unfold lookupAg at *
  induction l with
  | nil => simp
  | cons x t ih =>
    by_cases hx : (x.id == a.id) = true
    · simp [List.find?, hx] at h
    · simp only [List.cons_append, List.find?, hx] at h ⊢
      exact ih h

/-- Reporting an existing allocation through `addFramework` first and
`addSlave` second, or in the opposite order, produces identical allocator
states (claim C10): whichever call happens second records the allocation
in the sorters, so nothing is double-counted.  The hypotheses say the
framework and agent are new, and that no free resources exist that would
let the triggered event rounds allocate anything. -/
theorem addFramework_addSlave_comm (s : St) (f : Fw) (aId : String)
    (total R : Resources)
    (hf : lookupFw s.frameworks f.id = none)
    (ha : lookupAg s.agents aId = none)
    (hempty : ∀ a ∈ s.agents, a.available = [])
    (hnew : Ag.available ⟨aId, total, [(f.id, R)]⟩ = []) :
    addSlave aId total [(f.id, R)] (addFramework f [(aId, R)] s) =
      addFramework f [(aId, R)] (addSlave aId total [(f.id, R)] s) := by
  have hempty2 : ∀ a ∈ s.agents ++ [(⟨aId, total, [(f.id, R)]⟩ : Ag)],
      a.available = [] := by
    intro a hmem
    rcases List.mem_append.1 hmem with h | h
    · exact hempty a h
    · have : a = ⟨aId, total, [(f.id, R)]⟩ := by simpa using h
      rw [this]
      exact hnew
  have e1 : addFramework f [(aId, R)] s =
      { s with frameworks := s.frameworks ++ [f],
               rounds := s.rounds ++ [(s.clock, [])] } := by
    unfold addFramework allocateAll
    simp only [List.foldl_cons, List.foldl_nil]
    rw [ha]
    rw [allocate_noop _ _ (by exact hempty)]
  have e2 : addSlave aId total [(f.id, R)]
      ({ s with frameworks := s.frameworks ++ [f],
                rounds := s.rounds ++ [(s.clock, [])] } : St) =
      { s with agents := s.agents ++ [⟨aId, total, [(f.id, R)]⟩],
               frameworks := s.frameworks ++ [f],
               sorterAlloc := assocAdd s.sorterAlloc f.id R,
               fwCounts := bumpCount s.fwCounts f.id,
               roleCounts := bumpCount s.roleCounts f.role,
               rounds := (s.rounds ++ [(s.clock, [])]) ++ [(s.clock, [])] } := by
    unfold addSlave
    simp only [List.foldl_cons, List.foldl_nil]
    rw [show lookupFw (s.frameworks ++ [f]) f.id = some f from lookupFw_append_self hf]
    dsimp only
    rw [allocate_noop _ _ (by exact hempty2)]
  have e3 : addSlave aId total [(f.id, R)] s =
      { s with agents := s.agents ++ [⟨aId, total, [(f.id, R)]⟩],
               rounds := s.rounds ++ [(s.clock, [])] } := by
    unfold addSlave
    simp only [List.foldl_cons, List.foldl_nil]
    rw [hf]
    rw [allocate_noop _ _ (by exact hempty2)]
  have e4 : addFramework f [(aId, R)]
      ({ s with agents := s.agents ++ [⟨aId, total, [(f.id, R)]⟩],
                rounds := s.rounds ++ [(s.clock, [])] } : St) =
      { s with agents := s.agents ++ [⟨aId, total, [(f.id, R)]⟩],
               frameworks := s.frameworks ++ [f],
               sorterAlloc := assocAdd s.sorterAlloc f.id R,
               fwCounts := bumpCount s.fwCounts f.id,
               roleCounts := bumpCount s.roleCounts f.role,
               rounds := (s.rounds ++ [(s.clock, [])]) ++ [(s.clock, [])] } := by
    unfold addFramework allocateAll
    simp only [List.foldl_cons, List.foldl_nil]
    rw [show lookupAg (s.agents ++ [⟨aId, total, [(f.id, R)]⟩]) aId = some
      (⟨aId, total, [(f.id, R)]⟩ : Ag) from lookupAg_append_self ha]
    dsimp only
    rw [allocate_noop _ _ (by exact hempty2)]
  rw [e1, e2, e3, e4]

/-- With a single quota'ed role, one resource name's head-room is exactly
the unsatisfied part of the guarantee, whether or not the role has any
framework registered. -/
theorem headroomQ_single (env : REnv) (rs : RState) (ρq : String) (g : Resources)
    (h : env.quotas = [(ρq, g)]) (n : String) :
    qget (headroomQ env rs) n = max 0 (qget (qOf g) n - chargedN env rs ρq n) := by
  unfold headroomQ
  rw [h]
  simp only [List.map_cons, List.map_nil, qsum, List.foldr_cons, List.foldr_nil]
  rw [qget_append, qget_nil]
  unfold unsatisfiedQ chargedN
  rw [qget_qsub]
  ring

/-- C2 counterexample: in the `OfferFilter` scenario (refuse 2 s, interval
1 s) the filter is removed exactly at its wall-clock deadline `t = 2` with
zero complete allocation rounds having run after that deadline — the
removal log records `(deadline, rounds after deadline) = (2, 0)` — so
removal does not wait for a round past the deadline. -/
theorem filter_removed_without_round_after_deadline :
    ofS4.filters.length = 1 ∧ ofS5.filters.length = 0 ∧
    ofS5.removedLog = [(2, 0)] ∧
    roundsBrief ofS5 =
      [(0, []), (0, [("f1", "a1")]), (1, []), (2, [("f1", "a1")])] := by
  decide

/-- C2: the rule that actually governs filter removal — the timer is set
at install time to `max(allocation interval, refuse seconds)` after now
(MESOS-4302) — together with the behaviour the claim describes for a
filter shorter than the interval (`SmallOfferFilterTimeout`): after the
1 s timeout elapses the filter is still installed, the round at `t = 60`
still honours it (agent `a2` goes to `f1`, not to the declining `f2`),
the filter is dropped with that one round counted past its deadline, and
`f2` is offered `a2` again at `t = 120`. -/
theorem filter_removal_schedule :
    (∀ f a r t s, 0 < t →
      (recoverResources f a r (some t) s).filters =
        s.filters ++ [⟨f, a, r, s.clock + t, s.clock + max s.interval t,
          s.nextSeq⟩]) ∧
    sofS6.filters.length = 1 ∧
    roundsBrief sofS7 =
      [(0, []), (0, []), (0, []), (0, [("f2", "a2")]), (60, [("f1", "a2")])] ∧
    sofS7.filters.length = 0 ∧ sofS7.removedLog = [(1, 1)] ∧
    roundsBrief sofS9 = [(0, []), (0, []), (0, []), (0, [("f2", "a2")]),
      (60, [("f1", "a2")]), (120, [("f2", "a2")])] := by
  refine ⟨?_, by decide, by decide, by decide, by decide, by decide⟩
  intro f a r t s ht
  unfold recoverResources
  dsimp only
  rw [if_neg (by omega : ¬ t ≤ 0)]

/-- C3 counterexample: in `QuotaAbsentFramework`, role `q` has a quota of
2 cpus and 1024 mem but no framework at all, yet the cluster lays that
full amount aside as head-room: agent `a1` (exactly the guarantee) is
never offered to `f1` — the only framework, in the quota-less role `n` —
and `f1` only receives the second agent `a2`, so the withheld resources
are not offerable in full to other roles. -/
theorem absent_framework_headroom_counterexample :
    fwsOfRole qafS4.env "q" = [] ∧
    quotaOf qafS4.env "q" = some (resCM 2000 1024) ∧
    qget (headroomQ qafS4.env qafS4.rstate) "cpus" = 2000 ∧
    qget (headroomQ qafS4.env qafS4.rstate) "mem" = 1024 ∧
    roundsBrief qafS4 = [(0, []), (0, []), (0, []), (0, [("f1", "a2")])] ∧
    heldBy qafS4 "f1" "a1" = [] ∧
    heldBy qafS4 "f1" "a2" = resCM 1000 512 := by
  decide

/-- C3: what actually holds — head-room is the unsatisfied guarantee of
every quota'ed role, frameworkless ones included (the formula does not
consult the role's framework list), and it restrains only the fair-share
stage: in `MultiQuotaAbsentFrameworks` the frameworkless quota'ed role
`q1` does not stop the quota'ed role `q2`'s framework from receiving the
whole agent in stage 1. -/
theorem absent_framework_headroom :
    (∀ env rs ρ g n, env.quotas = [(ρ, g)] →
      qget (headroomQ env rs) n =
        max 0 (qget (qOf g) n - chargedN env rs ρ n)) ∧
    fwsOfRole mqS4.env "q1" = [] ∧
    roundsBrief mqS4 = [(0, []), (0, []), (0, []), (0, [("f1", "a1")])] ∧
    heldBy mqS4 "f1" "a1" = resCM 2000 2048 := by
  refine ⟨fun env rs ρ g n h => headroomQ_single env rs ρ g h n,
    by decide, by decide, by decide⟩

/-- C4: the amended ordering — the sorters order clients ascending by
the DRF key (weighted dominant share, then allocation count, then client
name; not stable insertion order) over exactly the participating
clients; the `UnreservedDRF` S1 sequence comes out (the four agents go,
whole, to `f1`, then `f2`, then `f2` again, then `f3`); and the
allocation-count tie breaker produces the `SameShareFairness` round
robin: with equal shares, `f1` (one allocation) yields to `f2` (none),
who then yields back to `f1`. -/
theorem drf_ordering_and_s1_sequence :
    (∀ env rs,
      List.Sorted (fun x y => keyLe (roleKey env rs x) (roleKey env rs y))
        (roleSort env rs) ∧ (roleSort env rs).Perm (activeRoles env)) ∧
    (∀ env rs ρ,
      List.Sorted (fun x y => keyLe (fwKey rs x.id) (fwKey rs y.id))
        (fwSort env rs ρ) ∧
      (fwSort env rs ρ).Perm ((fwsOfRole env ρ).filter Fw.participates)) ∧
    roundsBrief drfS7 = [(0, []), (0, [("f1", "a1")]), (0, []),
      (0, [("f2", "a2")]), (0, [("f2", "a3")]), (0, []),
      (0, [("f3", "a4")])] ∧
    heldBy drfS7 "f1" "a1" = resCM 2000 1024 ∧
    heldBy drfS7 "f2" "a2" = resCM 1000 512 ∧
    heldBy drfS7 "f2" "a3" = resCM 3000 2048 ∧
    heldBy drfS7 "f3" "a4" = resCM 4000 4096 ∧
    fwShare ssfS4.rstate "f1" = (0, 1) ∧ fwShare ssfS4.rstate "f2" = (0, 1) ∧
    getCount ssfS4.fwCounts "f1" = 1 ∧ getCount ssfS4.fwCounts "f2" = 0 ∧
    roundsBrief ssfS7 = [(0, []), (0, []), (0, [("f1", "ag")]),
      (1, [("f2", "ag")]), (2, [("f1", "ag")])] := by
  refine ⟨fun env rs => roleSort_sorted_perm env rs,
    fun env rs ρ => fwSort_sorted_perm env rs ρ,
    by decide, by decide, by decide, by decide, by decide,
    by decide, by decide, by decide, by decide, by decide⟩

/-- C5: every allocation a round emits goes to a registered framework and
contains no revocable item, no shared item and no gpus unless that
framework holds the matching capability; concretely, after `a1` is
updated with 10 revocable cpus the triggered round emits no offer at all
(`OversubscribedNotAllocated`), and the shared volume is withheld from
the incapable `f1` but offered to the capable `f2`
(`SharedResourcesCapability`). -/
theorem capability_respect :
    (∀ env ids rs, WFRS rs → ∀ x ∈ (roundRun env ids rs).2,
      ∃ f, f ∈ env.frameworks ∧ f.id = x.fw ∧
        (f.revocableCap = false → ∀ p ∈ x.res, p.1.revocable = false) ∧
        (f.sharedCap = false → ∀ p ∈ x.res, p.1.shared = false) ∧
        (f.gpuCap = false → qget (qOf x.res) "gpus" = 0)) ∧
    roundsBrief onaS3 = [(0, []), (0, [("f1", "a1")]), (0, [])] ∧
    revocableOf (heldBy onaS3 "f1" "a1") = [] ∧
    sharedOf (heldBy srcS5 "f1" "a1") = [] ∧
    sharedOf (heldBy srcS7 "f2" "a1") = [(sharedVol, 5)] := by
  refine ⟨?_, by decide, by decide, by decide, by decide⟩
  intro env ids rs hwf x hx
  obtain ⟨f, h1, h2, h3, h4, h5, h6, h7, h8⟩ := roundRun_clean env ids rs hwf x hx
  exact ⟨f, h1, h2, h6, h7, h8⟩

/-- C6: every line item of every emitted allocation is unreserved or
reserved to the receiving framework's own role; in the `Reservations`
scenario `f1` (role `r1`) gets `s1`'s `r1`-reserved resources and only
the unreserved half of `s2`, `f2` (role `r2`) gets only `s2`'s
`r2`-reserved half and nothing of `s1`, and `s3` — wholly reserved to the
frameworkless role `r3` — is never offered to anyone. -/
theorem reservation_isolation :
    (∀ env ids rs, WFRS rs → ∀ x ∈ (roundRun env ids rs).2,
      ∃ f, f ∈ env.frameworks ∧ f.id = x.fw ∧
        ∀ p ∈ x.res, p.1.role = "*" ∨ p.1.role = f.role) ∧
    roundsBrief rsvS5 = [(0, []), (0, []), (0, []),
      (0, [("f1", "s1"), ("f1", "s2")]), (0, [("f2", "s2")])] ∧
    heldBy rsvS5 "f1" "s1" = cpusR "r1" 2000 ++ memR "r1" 1024 ∧
    heldBy rsvS5 "f1" "s2" = resCM 1000 1024 ∧
    heldBy rsvS5 "f2" "s2" = cpusR "r2" 2000 ++ memR "r2" 1024 ∧
    heldBy rsvS5 "f2" "s1" = [] ∧
    heldBy rsvS5 "f1" "s3" = [] ∧ heldBy rsvS5 "f2" "s3" = [] := by
  refine ⟨?_, by decide, by decide, by decide, by decide, by decide,
    by decide, by decide⟩
  intro env ids rs hwf x hx
  obtain ⟨f, h1, h2, h3, h4, h5, h6, h7, h8⟩ := roundRun_clean env ids rs hwf x hx
  exact ⟨f, h1, h2, h5⟩

/-- C7: every emitted allocation meets the built-in allocatable threshold
(at least `MIN_CPUS` of cpu or `MIN_MEM` of memory); the threshold is
evaluated on the combined unreserved plus role-reserved slice — 16 mem
reserved and 16 mem unreserved pass together though neither part passes
alone — and in the `Allocatable` scenario the sub-threshold agent `s1` is
never offered while `s2`, `s3` and `s4` are. -/
theorem allocatable_threshold :
    (∀ env ids rs, WFRS rs → ∀ x ∈ (roundRun env ids rs).2,
      allocatable x.res = true) ∧
    allocatable [(⟨"mem", "r1", false, false⟩, 16)] = false ∧
    allocatable [(⟨"mem", "*", false, false⟩, 16)] = false ∧
    allocatable [(⟨"mem", "r1", false, false⟩, 16),
      (⟨"mem", "*", false, false⟩, 16)] = true ∧
    roundsBrief alcS5 = [(0, []), (0, []), (0, [("f1", "s2")]),
      (0, [("f1", "s3")]), (0, [("f1", "s4")])] ∧
    heldBy alcS5 "f1" "s1" = [] ∧
    heldBy alcS5 "f1" "s4" = cpusR "r1" 15 ++ memR "r1" 16 ++ resCM 15 16 ++
      [(plainKey "disk", 128)] := by
  refine ⟨?_, by decide, by decide, by decide, by decide, by decide, by decide⟩
  intro env ids rs hwf x hx
  obtain ⟨f, h1, h2, h3, h4, h5, h6, h7, h8⟩ := roundRun_clean env ids rs hwf x hx
  exact h4

/-- C8: the `UpdateSlave` sequence — with the agent's regular resources
already held by the revocable-capable `f1`, updating to 10 revocable cpus
triggers an offer of exactly those 10; updating to 12 triggers an offer
of exactly the 2 incremental cpus; updating down to 5 triggers a round
that offers nothing, leaving `f1` still holding the 12. -/
theorem oversubscription_update_offers :
    heldBy usS2 "f1" "a1" = plain100 ∧
    usS3.rounds.drop 2 = [(0, [⟨"f1", "a1", revCpus 10000⟩])] ∧
    usS4.rounds.drop 3 = [(0, [⟨"f1", "a1", revCpus 2000⟩])] ∧
    usS5.rounds.drop 4 = [(0, [])] ∧
    heldBy usS5 "f1" "a1" = plain100 ++ revCpus 10000 ++ revCpus 2000 := by
  decide

/-- C9: `updateAvailable` succeeds exactly when the operations apply to
the agent's available (unallocated) resources — on failure the error is
returned and no state is produced, on success the agent's total is the
old total with the available slice transformed; concretely, reserving
25 cpus and 50 mem succeeds on a free agent and the next offer carries
the reservation (`UpdateAvailableSuccess`), while the same reservation
fails with everything already allocated (`UpdateAvailableFail`). -/
theorem update_available_semantics :
    (∀ i ops s a, lookupAg s.agents i = some a →
      (∀ e, applyOps a.available ops = .error e →
        updateAvailable i ops s = .error e) ∧
      (∀ avail2, applyOps a.available ops = .ok avail2 →
        updateAvailable i ops s =
          .ok { s with agents := updateAg s.agents i (fun x =>
            { x with total := rsub x.total a.available ++ avail2 }) })) ∧
    uaS2.toOption.isSome = true ∧
    heldBy uaS3 "f1" "a1" = cpusR "r1" 25000 ++ memR "r1" 50 ++
      [(plainKey "disk", 100), (plainKey "cpus", 75000),
        (plainKey "mem", 50)] ∧
    (match uafS2 with | .ok _ => "" | .error e => e) = "insufficient" := by
  refine ⟨?_, by decide, by decide, by decide⟩
  intro i ops s a h
  constructor
  · intro e he
    unfold updateAvailable
    rw [h]
    dsimp only
    rw [he]
  · intro v hv
    unfold updateAvailable
    rw [h]
    dsimp only
    rw [hv]

/-- C10: reporting an existing allocation in either order — the framework
(with its per-agent allocation) before the agent (with its per-framework
allocated map), or the reverse — produces identical allocator states; in
the `NoDoubleAccounting` scenario both orders leave each framework
charged exactly its 1 cpu, both dominant shares at 1/2, and no further
offers. -/
theorem no_double_accounting :
    (∀ s f aId total R,
      lookupFw s.frameworks f.id = none →
      lookupAg s.agents aId = none →
      (∀ a ∈ s.agents, a.available = []) →
      Ag.available ⟨aId, total, [(f.id, R)]⟩ = [] →
      addSlave aId total [(f.id, R)] (addFramework f [(aId, R)] s) =
        addFramework f [(aId, R)] (addSlave aId total [(f.id, R)] s)) ∧
    assocRes ndaS4.sorterAlloc "fA" = resC1 ∧
    assocRes ndaS4.sorterAlloc "fB" = resC1 ∧
    fwShare ndaS4.rstate "fA" = (1000, 2000) ∧
    fwShare ndaS4.rstate "fB" = (1000, 2000) ∧
    roleShare ndaS4.env ndaS4.rstate "R1" = (1000, 2000) ∧
    roleShare ndaS4.env ndaS4.rstate "R2" = (1000, 2000) ∧
    roundsBrief ndaS4 = [(0, []), (0, []), (0, []), (0, [])] := by
  refine ⟨fun s f aId total R h1 h2 h3 h4 =>
    addFramework_addSlave_comm s f aId total R h1 h2 h3 h4,
    by decide, by decide, by decide, by decide, by decide, by decide,
    by decide⟩

/-- C4 counterexample to the claimed tie break: frameworks `z` then `a`
register in that insertion order in the same role, with equal (zero)
dominant shares and equal (zero) allocation counts; the fresh agent is
nevertheless offered to `a` — the DRF comparator's final tie breaker is
the client name, not stable insertion order, which would pick `z`. -/
theorem drf_tie_insertion_order_counterexample :
    drfTieS3.frameworks.map (fun f => f.id) = ["z", "a"] ∧
    fwShare drfTieS2.rstate "z" = (0, 1) ∧
    fwShare drfTieS2.rstate "a" = (0, 1) ∧
    getCount drfTieS2.fwCounts "z" = 0 ∧
    getCount drfTieS2.fwCounts "a" = 0 ∧
    roundsBrief drfTieS3 = [(0, []), (0, []), (0, [("a", "ag")])] ∧
    heldBy drfTieS3 "a" "ag" = resCM 1000 512 ∧
    heldBy drfTieS3 "z" "ag" = [] := by
  decide
